import Mathlib

/-
Verification of the balena-compose-parse normalization pipeline.

The definitions below are a shallow embedding of src/compose.ts (the second,
current revision of the file, the one defining normalizeObjectToComposition,
expandContext and parse).  JavaScript strings are Lean Strings, JavaScript
objects are association lists in insertion order, JavaScript scalar values are
the inductive Value, and thrown exceptions are modelled with Except.
-/

namespace BCP

/-- Whitespace characters recognised by the JavaScript trim used by
normalizeKeyValuePairs (the ASCII whitespace set plus NBSP). -/
def isJsSpace (c : Char) : Bool :=
  c = ' ' || c = '\t' || c = '\n' || c = '\r' || c = '\x0b' || c = '\x0c' || c = '\xa0'

/-- Remove leading and trailing JS whitespace from a character list. -/
def trimChars (cs : List Char) : List Char :=
  ((cs.dropWhile isJsSpace).reverse.dropWhile isJsSpace).reverse

/-- JavaScript String.prototype.trim. -/
def jsTrim (s : String) : String := String.mk (trimChars s.data)

/-- Decimal digits of a natural number, fuel-driven so that it is structural. -/
def natDigitsAux : Nat → Nat → List Char → List Char
  | 0, _, acc => acc
  | fuel + 1, n, acc =>
    let d := Char.ofNat (48 + n % 10)
    if n < 10 then d :: acc else natDigitsAux fuel (n / 10) (d :: acc)

/-- Decimal representation of a natural number. -/
def natToText (n : Nat) : String := String.mk (natDigitsAux (n + 1) n [])

/-- Decimal representation of an integer, as JavaScript prints it. -/
def intToText : Int → String
  | .ofNat n => natToText n
  | .negSucc n => "-" ++ natToText (n + 1)

/-- A JavaScript scalar value as it can appear in a parsed YAML/JSON document:
a string, an (integral) number, a boolean, null, or undefined. -/
inductive Value
  | vstr (s : String)
  | vnum (n : Int)
  | vbool (b : Bool)
  | vnull
  | vundef
  deriving Repr, DecidableEq

/-- JavaScript truthiness of a scalar value. -/
def Value.truthy : Value → Bool
  | .vstr s => s ≠ ""
  | .vnum n => n ≠ 0
  | .vbool b => b
  | .vnull => false
  | .vundef => false

/-- JavaScript string coercion of a scalar value, as performed by
template literals and by String(v). -/
def Value.toText : Value → String
  | .vstr s => s
  | .vnum n => intToText n
  | .vbool b => if b then "true" else "false"
  | .vnull => "null"
  | .vundef => "undefined"

/-- A JavaScript object, modelled as an association list in insertion order. -/
abbrev Dict (α : Type) := List (String × α)

/-- Property lookup: the value stored at the first occurrence of the key. -/
def dictLookup {α : Type} : Dict α → String → Option α
  | [], _ => none
  | (k, v) :: rest, key => if k = key then some v else dictLookup rest key

/-- JavaScript `key in obj`. -/
def containsKey {α : Type} (d : Dict α) (key : String) : Bool :=
  (dictLookup d key).isSome

/-- JavaScript property assignment `obj[key] = v`: an existing key keeps its
position and gets the new value, a new key is appended at the end. -/
def dictInsert {α : Type} : Dict α → String → α → Dict α
  | [], key, v => [(key, v)]
  | (k, w) :: rest, key, v =>
    if k = key then (k, v) :: rest else (k, w) :: dictInsert rest key v

/-- lodash fromPairs: build an object by assigning the pairs in order. -/
def fromPairs {α : Type} (ps : List (String × α)) : Dict α :=
  ps.foldl (fun d kv => dictInsert d kv.1 kv.2) []

/-- lodash keys: the keys of an object in insertion order. -/
def dictKeys {α : Type} (d : Dict α) : List String := d.map Prod.fst

/-- JavaScript String.prototype.split with a single-character separator. -/
def splitOnChar (sep : Char) : List Char → List (List Char)
  | [] => [[]]
  | c :: rest =>
    if c = sep then [] :: splitOnChar sep rest
    else
      match splitOnChar sep rest with
      | [] => [[c]]
      | first :: more => (c :: first) :: more

/-- JavaScript Array.prototype.join with a string separator. -/
def joinWith (sep : String) : List String → String
  | [] => ""
  | [x] => x
  | x :: y :: rest => x ++ sep ++ joinWith sep (y :: rest)

/-- The list-entry splitter of normalizeKeyValuePairs, exactly as coded:
parts = val.split(sep); key = parts.shift(); value = parts.join with the
hard-coded separator now replaced by the equal sign. -/
def splitFirstJS (sep : Char) (s : String) : String × String :=
  match splitOnChar sep s.data with
  | [] => ("", "")
  | first :: rest => (String.mk first, joinWith "=" (rest.map String.mk))

/-- The canonical mapping-or-list shape of environment, labels and build.args:
either a list of KEY=VALUE strings or an object of scalar values. -/
inductive ListOrDict
  | list (items : List String)
  | dict (entries : Dict Value)
  deriving Repr, DecidableEq

/-- normalizeKeyValuePairs from compose.ts.  A missing (undefined/null) input
yields the empty object.  For an object input every value is stringified and
trimmed when truthy and replaced by the empty string when falsy; keys are kept
as they are.  For a list input each entry is split with the separator, the
first part is the key, the remaining parts are rejoined with an equal sign,
and both sides are trimmed (a falsy, that is empty, value stays empty). -/
def normalizeKeyValuePairs (obj : Option ListOrDict) (sep : Char) : Dict String :=
  match obj with
  | none => []
  | some (.dict d) =>
    fromPairs (d.map (fun kv => (kv.1, if kv.2.truthy then jsTrim kv.2.toText else "")))
  | some (.list items) =>
    fromPairs (items.map (fun s =>
      let p := splitFirstJS sep s
      (jsTrim p.1, if p.2 ≠ "" then jsTrim p.2 else "")))

/-- Entries of a Dict String seen as string-valued scalars, as an in-place
JavaScript mutation leaves them. -/
def toValueDict (d : Dict String) : Dict Value :=
  d.map (fun kv => (kv.1, Value.vstr kv.2))

/-- Node path.parse(p).dir for POSIX paths: the prefix before the basename
(trailing slashes are not part of the basename), the root for root-only
absolute paths, and the empty string when there is no directory part. -/
def posixDir (s : String) : String :=
  match s.data with
  | [] => ""
  | c0 :: rest0 =>
    let isAbs := decide (c0 = '/')
    let t := if isAbs then rest0 else c0 :: rest0
    let r := t.reverse.dropWhile (fun c => c = '/')
    let r2 := r.dropWhile (fun c => c ≠ '/')
    match r2 with
    | [] => if isAbs then "/" else ""
    | _ :: restRev => (if isAbs then "/" else "") ++ String.mk restRev.reverse

/-- Does cs start with the character list pre? -/
def leadsWith : List Char → List Char → Bool
  | _, [] => true
  | [], _ :: _ => false
  | a :: as, b :: bs => decide (a = b) && leadsWith as bs

/-- Node path.posix.isAbsolute. -/
def pathIsAbsolute (s : String) : Bool :=
  match s.data with
  | [] => false
  | c :: _ => decide (c = '/')

/-- A path segment between slashes. -/
abbrev Seg := List Char

/-- The two-dot segment. -/
def ddot : Seg := ['.', '.']

/-- The segment resolver of Node path.posix.normalize: empty and single-dot
segments vanish, a two-dot segment pops the last real segment, and otherwise
is kept (when above the root of a relative path) or dropped (at the root of an
absolute path, where allowAboveRoot is false). -/
def normSegs (allow : Bool) : List Seg → List Seg → List Seg
  | acc, [] => acc.reverse
  | acc, seg :: rest =>
    if seg = [] ∨ seg = ['.'] then normSegs allow acc rest
    else if seg = ddot then
      match acc with
      | [] => if allow then normSegs allow [seg] rest else normSegs allow [] rest
      | top :: tl =>
        if top = ddot then
          (if allow then normSegs allow (seg :: acc) rest else normSegs allow acc rest)
        else normSegs allow tl rest
    else normSegs allow (seg :: acc) rest

/-- Join path segments with slashes. -/
def joinSegs : List Seg → List Char
  | [] => []
  | [x] => x
  | x :: y :: rest => x ++ '/' :: joinSegs (y :: rest)

/-- Is the last character of the list a slash? -/
def lastIsSlash (cs : List Char) : Bool :=
  match cs.getLast? with
  | some c => decide (c = '/')
  | none => false

/-- Node path.posix.normalize: resolve dot and two-dot segments, collapse
repeated slashes, keep a trailing slash, map the empty relative result to a
single dot, and re-attach the root of an absolute path. -/
def pathNormalize (p : String) : String :=
  match p.data with
  | [] => "."
  | c0 :: rest0 =>
    let cs := c0 :: rest0
    let isAbs := decide (c0 = '/')
    let trailing := lastIsSlash cs
    let core := joinSegs (normSegs (!isAbs) [] (splitOnChar '/' cs))
    let core := if core.isEmpty && !isAbs then ['.'] else core
    let core := if !core.isEmpty && trailing then core ++ ['/'] else core
    String.mk (if isAbs then '/' :: core else core)

/-- The object form of a service build section. -/
structure BuildObj where
  context : String
  dockerfile : Option String := none
  args : Option ListOrDict := none
  labels : Option ListOrDict := none
  deriving Repr, DecidableEq

/-- A build field: either the bare-string shorthand or the object form. -/
inductive BuildField
  | bstr (s : String)
  | bobj (b : BuildObj)
  deriving Repr, DecidableEq

/-- JavaScript truthiness of a present build field: a string is truthy when
non-empty, an object always is. -/
def buildFieldTruthy : BuildField → Bool
  | .bstr s => s ≠ ""
  | .bobj _ => true

/-- Truthiness of the optional build field. -/
def buildTruthy : Option BuildField → Bool
  | none => false
  | some b => buildFieldTruthy b

/-- Truthiness of an optional string field (an empty string is falsy). -/
def optStrTruthy : Option String → Bool
  | none => false
  | some s => s ≠ ""

/-- A depends_on field: an array of service names, or any non-array value
(which normalizeService rejects; its content is irrelevant). -/
inductive DependsOn
  | list (items : List String)
  | notList
  deriving Repr, DecidableEq

/-- The string-or-list shape of env_file. -/
inductive StringOrList
  | strv (s : String)
  | listv (items : List String)
  deriving Repr, DecidableEq

/-- Truthiness of a present env_file value: an empty string is falsy, an array
always truthy. -/
def envFileTruthy : StringOrList → Bool
  | .strv s => s ≠ ""
  | .listv _ => true

/-- An extra_hosts field: a list of host:ip strings or an object host -> ip. -/
inductive ExtraHosts
  | list (items : List String)
  | dict (entries : Dict Value)
  deriving Repr, DecidableEq

/-- A service definition, restricted to the fields the normalizer touches.
All other service fields pass through compose.ts untouched. -/
structure Service where
  image : Option String := none
  build : Option BuildField := none
  depends_on : Option DependsOn := none
  environment : Option ListOrDict := none
  env_file : Option StringOrList := none
  extra_hosts : Option ExtraHosts := none
  labels : Option ListOrDict := none
  ports : Option (List Value) := none
  volumes : Option (List String) := none
  deriving Repr, DecidableEq

/-- A network definition, restricted to the one field normalizeNetwork
touches. -/
structure Network where
  labels : Option ListOrDict := none
  deriving Repr, DecidableEq

/-- A volume definition, restricted to the one field normalizeVolume
touches. -/
structure Volume where
  labels : Option ListOrDict := none
  deriving Repr, DecidableEq

/-- The canonical composition, as in types.ts: top-level network and volume
entries may be null (modelled with Option). -/
structure Composition where
  version : String
  services : Dict Service
  networks : Option (Dict (Option Network)) := none
  volumes : Option (Dict (Option Volume)) := none
  deriving Repr, DecidableEq

/-- The error taxonomy of the pipeline: ValidationError (the schema failure
wrap included), the plain Error thrown by parse, and
InternalInconsistencyError. -/
inductive CompError
  | validation (msg : String)
  | generic (msg : String)
  | internalInconsistency
  deriving Repr, DecidableEq

/-- The label-name alphabet of validateLabels. -/
def isLabelChar (c : Char) : Bool :=
  ('a' ≤ c && c ≤ 'z') || ('A' ≤ c && c ≤ 'Z') || ('0' ≤ c && c ≤ '9') || c = '.' || c = '-'

/-- Does a label name match the validateLabels pattern (one or more characters
of the label alphabet)? -/
def labelNameOk (name : String) : Bool :=
  name ≠ "" && name.data.all isLabelChar

/-- validateLabels from compose.ts: the first key that fails the pattern
aborts with a ValidationError naming it. -/
def validateLabels (labels : Dict String) : Except CompError Unit :=
  match labels.find? (fun kv => !labelNameOk kv.1) with
  | some kv =>
    .error (.validation ("Invalid label name: \"" ++ kv.1 ++
      "\". Label names must only contain alphanumeric characters, periods \".\" and dashes \"-\"."))
  | none => .ok ()

/-- validateServiceVolume from compose.ts: the entry needs a colon, the part
before the first colon must have an empty path.parse dir, and must be a
declared volume name. -/
def validateServiceVolume (vol : String) (volumeNames : List String) : Except CompError Unit :=
  if vol.data.all (fun c => c ≠ ':') then
    .error (.validation ("Invalid volume: '" ++ vol ++ "'"))
  else
    let source := String.mk (vol.data.takeWhile (fun c => c ≠ ':'))
    if posixDir source ≠ "" then
      .error (.validation "Bind mounts are not allowed")
    else if !volumeNames.contains source then
      .error (.validation ("Missing volume definition for '" ++ source ++ "'"))
    else .ok ()

/-- One step of normalizeAndValidateFilePath: normalize the path, reject
absolute, root-escaping and wildcard paths, and add it to the set (kept as a
list in first-seen order). -/
def addEnvPath (acc : List String) (p : String) : Except CompError (List String) :=
  let q := pathNormalize p
  if pathIsAbsolute q then
    .error (.validation ("Absolute filepath not allowed: " ++ q))
  else if leadsWith q.data ddot then
    .error (.validation ("Directory traversing not allowed : " ++ q))
  else if q.data.contains '*' then
    .error (.validation ("Wildcards not allowed : " ++ q))
  else .ok (if acc.contains q then acc else acc ++ [q])

/-- normalizeAndValidateFilePath from compose.ts: wrap a bare string in a
list, then normalize, validate and deduplicate every path. -/
def normalizeAndValidateFilePath (ef : StringOrList) : Except CompError StringOrList := do
  let items := match ef with
    | .strv s => [s]
    | .listv l => l
  let out ← items.foldlM addEnvPath []
  return .listv out

/-- normalizeExtraHostObject from compose.ts: an object host -> ip becomes the
list of host:ip strings in key order. -/
def normalizeExtraHostObject (d : Dict Value) : List String :=
  d.map (fun kv => kv.1 ++ ":" ++ kv.2.toText)

/-- normalizeArrayOfStrings from compose.ts: String() applied to every
element. -/
def normalizeArrayOfStrings (vals : List Value) : List Value :=
  vals.map (fun v => Value.vstr v.toText)

/-- lodash uniq keeps the first occurrence of each element. -/
def dedupFirstAux : List String → List String → List String
  | _, [] => []
  | seen, x :: rest =>
    if seen.contains x then dedupFirstAux seen rest
    else x :: dedupFirstAux (x :: seen) rest

/-- lodash uniq. -/
def dedupFirst (l : List String) : List String := dedupFirstAux [] l

/-- The image-or-build presence check of normalizeService. -/
def checkImageBuild (s : Service) : Except CompError Unit :=
  if !optStrTruthy s.image && !buildTruthy s.build then
    .error (.validation "You must specify either an image or a build")
  else .ok ()

/-- The depends_on checks of normalizeService: must be an array, must be
duplicate-free, and every entry must be a declared service name. -/
def checkDependsOn (serviceNames : List String) : Option DependsOn → Except CompError Unit
  | none => .ok ()
  | some .notList => .error (.validation "Service dependencies must be an array")
  | some (.list deps) =>
    if (dedupFirst deps).length ≠ deps.length then
      .error (.validation "Service dependencies must be unique")
    else
      match deps.find? (fun dep => !serviceNames.contains dep) with
      | some dep => .error (.validation ("Unknown service dependency: " ++ dep))
      | none => .ok ()

/-- The environment step of normalizeService, also used for build.args: a
present field goes through normalizeKeyValuePairs into mapping form. -/
def normalizeEnvField : Option ListOrDict → Option ListOrDict
  | none => none
  | some e => some (.dict (toValueDict (normalizeKeyValuePairs (some e) '=')))

/-- The env_file step of normalizeService: a truthy field is normalized and
validated, a falsy (empty-string) one is left alone. -/
def normalizeEnvFileField : Option StringOrList → Except CompError (Option StringOrList)
  | none => pure none
  | some ef =>
    if envFileTruthy ef then do
      let ef2 ← normalizeAndValidateFilePath ef
      pure (some ef2)
    else pure (some ef)

/-- The extra_hosts step of normalizeService: an object becomes the host:ip
list, a list is left untouched. -/
def normalizeExtraHostsField : Option ExtraHosts → Option ExtraHosts
  | none => none
  | some (.dict d) => some (.list (normalizeExtraHostObject d))
  | some (.list l) => some (.list l)

/-- The labels step of normalizeService and of the network and volume
normalizers: normalize to mapping form and validate the keys. -/
def normalizeLabelsField : Option ListOrDict → Except CompError (Option ListOrDict)
  | none => pure none
  | some l => do
    let nl := normalizeKeyValuePairs (some l) '='
    let _ ← validateLabels nl
    pure (some (ListOrDict.dict (toValueDict nl)))

/-- The build object denoted by a build field: the bare-string shorthand is
sugar for a context-only object. -/
def boOf : BuildField → BuildObj
  | .bstr s => { context := s }
  | .bobj o => o

/-- The build-section part of normalizeService: convert the bare-string
shorthand to an object, normalize args (a pure reshaping, done in the final
record), then normalize and validate labels. -/
def normalizeBuild (b : BuildField) : Except CompError BuildField := do
  let labels ← normalizeLabelsField (boOf b).labels
  return .bobj { boOf b with args := normalizeEnvField (boOf b).args, labels := labels }

/-- The build step of normalizeService: a truthy build field is normalized,
a falsy one (absent or the empty string) is left alone. -/
def normalizeBuildField : Option BuildField → Except CompError (Option BuildField)
  | none => pure none
  | some b =>
    if buildFieldTruthy b then do
      let b2 ← normalizeBuild b
      pure (some b2)
    else pure (some b)

/-- The ports step of normalizeService: every element is stringified. -/
def normalizePortsField : Option (List Value) → Option (List Value)
  | none => none
  | some l => some (normalizeArrayOfStrings l)

/-- The volumes check of normalizeService: each short-syntax entry is
validated against the declared volume names, failing fast. -/
def checkVolumes (volumeNames : List String) : Option (List String) → Except CompError Unit
  | none => .ok ()
  | some vols => vols.forM (fun v => validateServiceVolume v volumeNames)

/-- normalizeService from compose.ts, with the side-effecting steps in source
order: presence check, build, depends_on, env_file, labels, volumes; the pure
reshapings of environment, extra_hosts and ports commute with them and are
applied in the final record update. -/
def normalizeService (serviceNames volumeNames : List String) (s : Service) :
    Except CompError Service := do
  let _ ← checkImageBuild s
  let build ← normalizeBuildField s.build
  let _ ← checkDependsOn serviceNames s.depends_on
  let envFile ← normalizeEnvFileField s.env_file
  let labels ← normalizeLabelsField s.labels
  let _ ← checkVolumes volumeNames s.volumes
  return { s with build := build, environment := normalizeEnvField s.environment,
                  env_file := envFile, extra_hosts := normalizeExtraHostsField s.extra_hosts,
                  labels := labels, ports := normalizePortsField s.ports }

/-- normalizeNetwork from compose.ts: normalize and validate labels. -/
def normalizeNetwork (n : Network) : Except CompError Network := do
  let labels2 ← normalizeLabelsField n.labels
  match n.labels with
  | none => pure n
  | some _ => pure { n with labels := labels2 }

/-- normalizeVolume from compose.ts: normalize and validate labels. -/
def normalizeVolume (v : Volume) : Except CompError Volume := do
  let labels2 ← normalizeLabelsField v.labels
  match v.labels with
  | none => pure v
  | some _ => pure { v with labels := labels2 }

/-- Apply normalizeNetwork to a top-level entry.  A null entry cannot occur
here because preflight has replaced nulls with empty objects. -/
def normalizeNetworkEntry (e : Option Network) : Except CompError (Option Network) :=
  match e with
  | none => pure none
  | some n => do
    let n2 ← normalizeNetwork n
    pure (some n2)

/-- Apply normalizeVolume to a top-level entry (null entries as above). -/
def normalizeVolumeEntry (e : Option Volume) : Except CompError (Option Volume) :=
  match e with
  | none => pure none
  | some v => do
    let v2 ← normalizeVolume v
    pure (some v2)

/-- lodash mapValues with a fallible function: values are rewritten in key
order and the first failure aborts. -/
def mapValuesM {α β : Type} (f : α → Except CompError β) : Dict α → Except CompError (Dict β)
  | [] => pure []
  | (k, v) :: rest => do
    let w ← f v
    let rest2 ← mapValuesM f rest
    pure ((k, w) :: rest2)

/-- The declared schema versions. -/
inductive SchemaVersion
  | v1_0
  | v2_0
  | v2_1
  deriving Repr, DecidableEq

/-- An input document that carries a version field. -/
structure V2Doc where
  version : Value
  services : Option (Dict Service) := none
  networks : Option (Dict (Option Network)) := none
  volumes : Option (Dict (Option Volume)) := none
  deriving Repr, DecidableEq

/-- The raw argument of normalize: a non-object scalar, an object without a
version field (the schema v1 layout, whose top level is the service map), or
an object with a version field. -/
inductive RawInput
  | scalar (v : Value)
  | v1Object (services : Dict Service)
  | v2Object (d : V2Doc)
  deriving Repr, DecidableEq

/-- The null-to-empty-object preflight conversion on a networks or volumes
map. -/
def preflightEntries {α : Type} (empty : α) (d : Dict (Option α)) : Dict (Option α) :=
  d.map (fun kv => (kv.1, some (kv.2.getD empty)))

/-- The keys of an optional object (lodash keys of undefined is empty). -/
def optDictKeys {α : Type} : Option (Dict α) → List String
  | none => []
  | some d => dictKeys d

/-- The volumes half of the version-2.1 normalization: mapValues over a
present map. -/
def normalizeVolumesStep :
    Option (Dict (Option Volume)) → Except CompError (Option (Dict (Option Volume)))
  | none => pure none
  | some vd => do
    let vd2 ← mapValuesM normalizeVolumeEntry vd
    pure (some vd2)

/-- The networks half of the version-2.1 normalization. -/
def normalizeNetworksStep :
    Option (Dict (Option Network)) → Except CompError (Option (Dict (Option Network)))
  | none => pure none
  | some nd => do
    let nd2 ← mapValuesM normalizeNetworkEntry nd
    pure (some nd2)

/-- The version-2.1 normalization tail of normalizeObjectToComposition:
volumes first, then services (with the service and volume name lists), then
networks, producing the canonical composition tagged 2.1. -/
def normalizeV21 (services : Dict Service) (networks : Option (Dict (Option Network)))
    (volumes : Option (Dict (Option Volume))) : Except CompError Composition := do
  let volumes2 ← normalizeVolumesStep volumes
  let services2 ← mapValuesM
    (normalizeService (dictKeys services) (optDictKeys volumes2)) services
  let networks2 ← normalizeNetworksStep networks
  return { version := "2.1", services := services2, networks := networks2,
           volumes := volumes2 }

/-- normalizeObjectToComposition from compose.ts.  The structural schema
validator is an external capability passed as an argument; its failure message
is re-raised as a ValidationError.  A document without a version field is
version 1.0; a present version is coerced to a string and must be 2, 2.0 or
2.1.  Version 1.0 is wrapped as the service map of a 2.0 document, 2.0 is
retagged 2.1, and 2.1 documents get their fields normalized. -/
def normalizeObjectToComposition
    (validateCap : SchemaVersion → RawInput → Except String Unit)
    (input : RawInput) : Except CompError Composition := do
  match input with
  | .scalar _ => throw (CompError.validation "Invalid composition format")
  | .v1Object rawServices =>
    match validateCap SchemaVersion.v1_0 (RawInput.v1Object rawServices) with
    | .error m => throw (CompError.validation m)
    | .ok _ => normalizeV21 rawServices none none
  | .v2Object d =>
    let vs := d.version.toText
    let version ← (
      if vs = "2" ∨ vs = "2.0" then pure SchemaVersion.v2_0
      else if vs = "2.1" then pure SchemaVersion.v2_1
      else throw (CompError.validation "Unsupported composition version"))
    let networks := d.networks.map (preflightEntries ({} : Network))
    let volumes := d.volumes.map (preflightEntries ({} : Volume))
    let pre := RawInput.v2Object { d with networks := networks, volumes := volumes }
    match validateCap version pre with
    | .error m => throw (CompError.validation m)
    | .ok _ => normalizeV21 (d.services.getD []) networks volumes

/-- The build half of an image descriptor.  Accessing .context on a
still-bare-string build field yields undefined, hence the Option. -/
structure BuildConfig where
  context : Option String := none
  dockerfile : Option String := none
  args : Option ListOrDict := none
  labels : Option ListOrDict := none
  tag : Option String := none
  deriving Repr, DecidableEq

/-- The image of a descriptor: a pull reference or a build configuration. -/
inductive ImageField
  | pull (ref : String)
  | buildCfg (b : BuildConfig)
  deriving Repr, DecidableEq

/-- One per-service build-or-pull descriptor. -/
structure ImageDescriptor where
  serviceName : String
  image : ImageField
  deriving Repr, DecidableEq

/-- createImageDescriptor from compose.ts. -/
def createImageDescriptor (name : String) (s : Service) : Except CompError ImageDescriptor :=
  if optStrTruthy s.image && !buildTruthy s.build then
    .ok { serviceName := name, image := .pull (s.image.getD "") }
  else if !buildTruthy s.build then
    .error .internalInconsistency
  else
    match s.build with
    | some (.bobj bo) =>
      .ok { serviceName := name, image := .buildCfg {
        context := some bo.context,
        dockerfile := if optStrTruthy bo.dockerfile then bo.dockerfile else none,
        args := bo.args,
        labels := bo.labels,
        tag := if optStrTruthy s.image then s.image else none } }
    | some (.bstr _) =>
      .ok { serviceName := name, image := .buildCfg {
        tag := if optStrTruthy s.image then s.image else none } }
    | none => .error .internalInconsistency

/-- The canonical version tag (DEFAULT_SCHEMA_VERSION). -/
def defaultVersionTag : String := "2.1"

/-- parse from compose.ts: check the version tag, then map every service, in
key order, to its image descriptor. -/
def parse (c : Composition) : Except CompError (List ImageDescriptor) :=
  if c.version ≠ defaultVersionTag then
    .error (.generic "Unsupported composition version")
  else
    c.services.mapM (fun kv => createImageDescriptor kv.1 kv.2)

/-- readAndNormalizeExpandEnvFile from compose.ts, on the lines delivered by
the resolver: each line goes through normalizeKeyValuePairs as a singleton
list and the resulting pairs are assigned in order, so a later line with the
same key overwrites an earlier one. -/
def parseEnvFileLines (lines : List String) : Dict String :=
  lines.foldl
    (fun acc line =>
      (normalizeKeyValuePairs (some (.list [line])) '=').foldl
        (fun a kv => dictInsert a kv.1 kv.2) acc)
    []

/-- The env_file paths of a service as iterated by the expansion loops: a
falsy (empty-string) value contributes nothing, a bare string is wrapped in a
singleton list. -/
def envPathsOf (s : Service) : List String :=
  match s.env_file with
  | none => []
  | some (.strv p) => if p ≠ "" then [p] else []
  | some (.listv l) => l

/-- One step of readEnvFilesFromComposition: a path already in the cache is
skipped, otherwise the resolver is invoked and the parsed file is stored.  The
second component records every resolver invocation in order. -/
def stepEnvPath (resolver : String → List String)
    (st : Dict (Dict String) × List String) (p : String) :
    Dict (Dict String) × List String :=
  if containsKey st.1 p then st
  else (st.1 ++ [(p, parseEnvFileLines (resolver p))], st.2 ++ [p])

/-- readEnvFilesFromComposition from compose.ts: walk the services in order,
and their env_file paths in order, filling the global cache.  The returned
trace lists the resolver invocations. -/
def readEnvFilesFromComposition (resolver : String → List String) (c : Composition) :
    Dict (Dict String) × List String :=
  c.services.foldl (fun st kv => (envPathsOf kv.2).foldl (stepEnvPath resolver) st) ([], [])

/-- The environment of a service as the merge loop sees it
(service.environment ?? the empty object).  After normalization the field is
always in mapping form, so the list form cannot reach this point. -/
def envDictOf (s : Service) : Dict Value :=
  match s.environment with
  | some (.dict d) => d
  | _ => []

/-- Merge one parsed env file into an environment: keys already present are
kept, new keys are appended in file order. -/
def mergeFileVars (env : Dict Value) (vars : Dict String) : Dict Value :=
  vars.foldl
    (fun e kv => if containsKey e kv.1 then e else e ++ [(kv.1, Value.vstr kv.2)])
    env

/-- assignExpandedEnvFilesToComposition from compose.ts, for one service: a
service with a truthy env_file gets every referenced file merged into its
environment in declared order; env_file is deleted in every case.  A path
missing from the cache reads as an empty file (the JavaScript would fault;
the caller always passes the complete cache). -/
def assignEnvFilesToService (cache : Dict (Dict String)) (s : Service) : Service :=
  match s.env_file with
  | none => { s with env_file := none }
  | some ef =>
    if envFileTruthy ef then
      let paths := match ef with
        | .strv p => [p]
        | .listv l => l
      let env2 := paths.foldl
        (fun e p => mergeFileVars e ((dictLookup cache p).getD [])) (envDictOf s)
      { s with environment := some (.dict env2), env_file := none }
    else { s with env_file := none }

/-- assignExpandedEnvFilesToComposition from compose.ts over all services. -/
def assignExpandedEnvFilesToComposition (cache : Dict (Dict String)) (c : Composition) :
    Composition :=
  { c with services := c.services.map (fun kv => (kv.1, assignEnvFilesToService cache kv.2)) }

/-- expandContext from compose.ts: read all env files, then merge them. -/
def expandContext (resolver : String → List String) (c : Composition) : Composition :=
  assignExpandedEnvFilesToComposition (readEnvFilesFromComposition resolver c).1 c

/-- The left brace character, kept out of string literals. -/
def lbrace : Char := Char.ofNat 123

/-- The right brace character. -/
def rbrace : Char := Char.ofNat 125

/-- A variable-name character of the interpolation grammar. -/
def isNameChar (c : Char) : Bool := c.isAlpha || c.isDigit || c = '_'

/-- Modelled from the spec: the braced-form substitution of the interpolation
engine (section 4.3), whose source file is not part of src/.  The payload
after the name selects the operator: nothing (plain substitution, empty for
undefined), minus (default when undefined), colon-minus (default when
undefined or empty), question mark (ExpansionError with the given message when
undefined), colon-question-mark (the error also when empty).  Payload text is
inserted literally.  An unrecognised payload is left as literal text, a case
the spec does not constrain. -/
def braceSubst (lookup : String → Option String) (name : String) (opPart : List Char) :
    Except String String :=
  let vOpt := lookup name
  match opPart with
  | [] => .ok (vOpt.getD "")
  | ':' :: '-' :: d => .ok (match vOpt with
      | some v => if v ≠ "" then v else String.mk d
      | none => String.mk d)
  | ':' :: '?' :: m => (match vOpt with
      | some v => if v ≠ "" then .ok v else .error (String.mk m)
      | none => .error (String.mk m))
  | '-' :: d => .ok (match vOpt with
      | some v => v
      | none => String.mk d)
  | '?' :: m => (match vOpt with
      | some v => .ok v
      | none => .error (String.mk m))
  | other => .ok ("$" ++ String.mk (lbrace :: (name.data ++ other) ++ [rbrace]))

/-- Modelled from the spec: the single-pass left-to-right scanner of the
interpolation engine (section 4.3), fuel-driven (each step consumes at least
one character, so the entry point's fuel is always sufficient).  A pair of
dollar signs collapses to one literal dollar; a dollar before a brace starts a
braced expansion running to the next closing brace; a dollar before a name
character starts a bare expansion (undefined names read as empty, trailing
operator-like text stays literal); any other character is copied. -/
def expandVars (lookup : String → Option String) : Nat → List Char → Except String (List Char)
  | 0, _ => .ok []
  | _ + 1, [] => .ok []
  | fuel + 1, c :: rest =>
    if c = '$' then
      match rest with
      | [] => .ok ['$']
      | c2 :: rest2 =>
        if c2 = '$' then
          (expandVars lookup fuel rest2).map (fun out => '$' :: out)
        else if c2 = lbrace then
          let payload := rest2.takeWhile (fun d => d ≠ rbrace)
          let remainder := rest2.dropWhile (fun d => d ≠ rbrace)
          match remainder with
          | [] => .ok (c :: rest)
          | _ :: after => do
            let nm := payload.takeWhile isNameChar
            let piece ← braceSubst lookup (String.mk nm) (payload.drop nm.length)
            let out ← expandVars lookup fuel after
            pure (piece.data ++ out)
        else
          let nm := rest.takeWhile isNameChar
          if nm.isEmpty then
            (expandVars lookup fuel rest).map (fun out => '$' :: out)
          else
            let value := (lookup (String.mk nm)).getD ""
            (expandVars lookup fuel (rest.drop nm.length)).map
              (fun out => value.data ++ out)
    else
      (expandVars lookup fuel rest).map (fun out => c :: out)

/-- Modelled from the spec: expand(template, lookup), the pure entry point of
the interpolation engine. -/
def interpolate (lookup : String → Option String) (s : String) : Except String String :=
  (expandVars lookup (s.data.length + 1) s.data).map String.mk

/-! Basic lemmas about the object model. -/

theorem dictLookup_dictInsert {α : Type} (d : Dict α) (k key : String) (v : α) :
    dictLookup (dictInsert d k v) key = if key = k then some v else dictLookup d key := by
  induction d with
  | nil =>
    by_cases h : key = k
    · subst h; simp [dictInsert, dictLookup]
    · simp [dictInsert, dictLookup, h, Ne.symm h]
  | cons kv rest ih =>
    obtain ⟨k0, v0⟩ := kv
    by_cases h0 : k0 = k
    · subst h0
      by_cases h : key = k0
      · subst h; simp [dictInsert, dictLookup]
      · simp [dictInsert, dictLookup, h, Ne.symm h]
    · by_cases h : k0 = key
      · subst h
        have hk : ¬(k0 = k) := h0
        simp [dictInsert, dictLookup, hk]
      · simp [dictInsert, h0, dictLookup, h, ih]

theorem containsKey_dictInsert {α : Type} (d : Dict α) (k key : String) (v : α) :
    containsKey (dictInsert d k v) key = (key = k || containsKey d key) := by
  by_cases h : key = k <;> simp [containsKey, dictLookup_dictInsert, h]

theorem containsKey_foldl_insert {α : Type} (ps : List (String × α)) (acc : Dict α)
    (key : String) :
    containsKey (ps.foldl (fun d kv => dictInsert d kv.1 kv.2) acc) key =
      (containsKey acc key || decide (key ∈ ps.map Prod.fst)) := by
  induction ps generalizing acc with
  | nil => simp
  | cons kv rest ih =>
    simp only [List.foldl_cons, ih, containsKey_dictInsert, List.map_cons, List.mem_cons]
    by_cases h1 : key = kv.1 <;> by_cases h2 : key ∈ rest.map Prod.fst <;>
      simp [h1, h2]

theorem containsKey_fromPairs {α : Type} (ps : List (String × α)) (key : String) :
    containsKey (fromPairs ps) key = decide (key ∈ ps.map Prod.fst) := by
  have h := containsKey_foldl_insert ps [] key
  simpa [fromPairs, containsKey, dictLookup] using h

theorem mem_dictInsert {α : Type} (d : Dict α) (k : String) (v : α)
    (kv : String × α) (h : kv ∈ dictInsert d k v) : kv ∈ d ∨ kv = (k, v) := by
  induction d with
  | nil => simp [dictInsert] at h; simp [h]
  | cons kv0 rest ih =>
    obtain ⟨k0, v0⟩ := kv0
    by_cases h0 : k0 = k
    · subst h0
      simp [dictInsert] at h
      rcases h with h | h
      · right; simp [h]
      · left; simp [h]
    · simp only [dictInsert, if_neg h0, List.mem_cons] at h
      rcases h with h | h
      · left; simp [h]
      · rcases ih h with h2 | h2
        · left; simp [h2]
        · right; exact h2

theorem mem_foldl_insert {α : Type} (ps : List (String × α)) :
    ∀ (acc : Dict α) (kv : String × α),
      kv ∈ ps.foldl (fun d p => dictInsert d p.1 p.2) acc → kv ∈ acc ∨ kv ∈ ps := by
  induction ps with
  | nil => intro acc kv h; simp at h; simp [h]
  | cons p rest ih =>
    intro acc kv h
    simp only [List.foldl_cons] at h
    rcases ih (dictInsert acc p.1 p.2) kv h with h3 | h3
    · rcases mem_dictInsert acc p.1 p.2 kv h3 with h4 | h4
      · exact Or.inl h4
      · right; simp [h4]
    · right; right; exact h3

theorem mem_fromPairs {α : Type} (ps : List (String × α)) (kv : String × α)
    (h : kv ∈ fromPairs ps) : kv ∈ ps := by
  rcases mem_foldl_insert ps [] kv h with h2 | h2
  · simp at h2
  · exact h2

theorem head?_append_left {α : Type} (l r : List α) (h : l ≠ []) :
    (l ++ r).head? = l.head? := by
  cases l with
  | nil => exact absurd rfl h
  | cons x xs => rfl

theorem getLast?_append_right {α : Type} (a b : List α) (hb : b ≠ []) :
    (a ++ b).getLast? = b.getLast? := by
  rw [← List.head?_reverse, ← List.head?_reverse, List.reverse_append]
  exact head?_append_left _ _ (by simpa using hb)

theorem dropWhile_head_false {p : Char → Bool} {l : List Char} {x : Char} {xs : List Char}
    (h : l.dropWhile p = x :: xs) : p x = false := by
  induction l with
  | nil => simp [List.dropWhile] at h
  | cons c rest ih =>
    by_cases hc : p c
    · rw [List.dropWhile_cons, if_pos hc] at h; exact ih h
    · rw [List.dropWhile_cons, if_neg hc] at h
      cases h
      simpa using hc

theorem dropWhile_head?_false {p : Char → Bool} {l : List Char} {x : Char}
    (h : (l.dropWhile p).head? = some x) : p x = false := by
  cases hd : l.dropWhile p with
  | nil => rw [hd] at h; simp at h
  | cons y ys =>
    rw [hd] at h
    simp at h
    subst h
    exact dropWhile_head_false hd

theorem dropWhile_eq_self_of_head {p : Char → Bool} (l : List Char)
    (h : ∀ x, l.head? = some x → p x = false) : l.dropWhile p = l := by
  cases l with
  | nil => rfl
  | cons c rest =>
    have := h c rfl
    rw [List.dropWhile_cons, if_neg (by simp [this])]

theorem dropWhile_getLast? {p : Char → Bool} (l : List Char)
    (h : l.dropWhile p ≠ []) : (l.dropWhile p).getLast? = l.getLast? := by
  conv_rhs => rw [← List.takeWhile_append_dropWhile p l]
  rw [getLast?_append_right _ _ h]

theorem trimChars_head?_false {cs : List Char} {x : Char}
    (h : (trimChars cs).head? = some x) : isJsSpace x = false := by
  unfold trimChars at h
  rw [List.head?_reverse] at h
  set B := ((cs.dropWhile isJsSpace).reverse.dropWhile isJsSpace) with hB
  have hBne : B ≠ [] := by
    intro he
    rw [he] at h
    simp at h
  rw [hB, dropWhile_getLast? _ (hB ▸ hBne)] at h
  rw [List.getLast?_reverse] at h
  exact dropWhile_head?_false h

theorem trimChars_getLast?_false {cs : List Char} {x : Char}
    (h : (trimChars cs).getLast? = some x) : isJsSpace x = false := by
  unfold trimChars at h
  rw [List.getLast?_reverse] at h
  exact dropWhile_head?_false h

theorem trimChars_idem (cs : List Char) : trimChars (trimChars cs) = trimChars cs := by
  have h1 : (trimChars cs).dropWhile isJsSpace = trimChars cs :=
    dropWhile_eq_self_of_head _ (fun x hx => trimChars_head?_false hx)
  have h2 : (trimChars cs).reverse.dropWhile isJsSpace = (trimChars cs).reverse := by
    apply dropWhile_eq_self_of_head
    intro x hx
    rw [List.head?_reverse] at hx
    exact trimChars_getLast?_false hx
  show ((((trimChars cs).dropWhile isJsSpace).reverse).dropWhile isJsSpace).reverse = _
  rw [h1, h2, List.reverse_reverse]

theorem jsTrim_idem (s : String) : jsTrim (jsTrim s) = jsTrim s := by
  unfold jsTrim
  rw [show (String.mk (trimChars s.data)).data = trimChars s.data from rfl, trimChars_idem]

theorem jsTrim_empty : jsTrim "" = "" := rfl

/-- Join character lists with a separator character. -/
def joinChar (sep : Char) : List (List Char) → List Char
  | [] => []
  | [x] => x
  | x :: y :: rest => x ++ sep :: joinChar sep (y :: rest)

theorem splitOnChar_ne_nil (sep : Char) (cs : List Char) : splitOnChar sep cs ≠ [] := by
  cases cs with
  | nil => simp [splitOnChar]
  | cons c rest =>
    by_cases h : c = sep
    · simp [splitOnChar, h]
    · simp only [splitOnChar, if_neg h]
      cases splitOnChar sep rest <;> simp

theorem splitOnChar_eq (sep : Char) (cs : List Char) :
    splitOnChar sep cs =
      (cs.takeWhile (fun c => c ≠ sep)) ::
        (match cs.dropWhile (fun c => c ≠ sep) with
         | [] => []
         | _ :: tl => splitOnChar sep tl) := by
  induction cs with
  | nil => rfl
  | cons c rest ih =>
    by_cases h : c = sep
    · subst h
      simp [splitOnChar, List.takeWhile_cons, List.dropWhile_cons]
    · simp only [splitOnChar, if_neg h]
      rw [ih]
      simp [List.takeWhile_cons, List.dropWhile_cons, h]

theorem joinChar_splitOnChar (sep : Char) (cs : List Char) :
    joinChar sep (splitOnChar sep cs) = cs := by
  induction cs with
  | nil => rfl
  | cons c rest ih =>
    by_cases h : c = sep
    · subst h
      simp only [splitOnChar, if_pos rfl]
      cases hs : splitOnChar c rest with
      | nil => exact absurd hs (splitOnChar_ne_nil c rest)
      | cons f m =>
        rw [hs] at ih
        show [] ++ c :: joinChar c (f :: m) = c :: rest
        rw [List.nil_append, ih]
    · simp only [splitOnChar, if_neg h]
      cases hs : splitOnChar sep rest with
      | nil => exact absurd hs (splitOnChar_ne_nil sep rest)
      | cons f m =>
        rw [hs] at ih
        cases m with
        | nil =>
          show c :: f = c :: rest
          simp only [joinChar] at ih
          rw [ih]
        | cons y ys =>
          show (c :: f) ++ sep :: joinChar sep (y :: ys) = c :: rest
          simp only [joinChar] at ih
          rw [List.cons_append, ih]

theorem joinWith_eq_mk_joinChar (L : List (List Char)) :
    joinWith "=" (L.map String.mk) = String.mk (joinChar '=' L) := by
  induction L with
  | nil => rfl
  | cons x rest ih =>
    cases rest with
    | nil => rfl
    | cons y ys =>
      show String.mk x ++ "=" ++ joinWith "=" ((y :: ys).map String.mk) = _
      rw [ih]
      show String.mk (x ++ ['='] ++ joinChar '=' (y :: ys)) = String.mk (x ++ '=' :: joinChar '=' (y :: ys))
      rw [List.append_assoc]
      rfl

/-- Modelled from the claim: split an entry at the first equal sign only; the
key is everything before it, the value everything after it (so the value may
itself contain equal signs), and an entry without an equal sign has the empty
string as its value. -/
def splitAtFirstEq (s : String) : String × String :=
  (String.mk (s.data.takeWhile (fun c => c ≠ '=')),
   match s.data.dropWhile (fun c => c ≠ '=') with
   | [] => ""
   | _ :: tl => String.mk tl)

theorem splitFirstJS_eq (s : String) : splitFirstJS '=' s = splitAtFirstEq s := by
  unfold splitFirstJS splitAtFirstEq
  rw [splitOnChar_eq '=' s.data]
  cases hd : s.data.dropWhile (fun c => c ≠ '=') with
  | nil => rfl
  | cons d tl =>
    show (_, joinWith "=" ((splitOnChar '=' tl).map String.mk)) = (_, String.mk tl)
    rw [joinWith_eq_mk_joinChar, joinChar_splitOnChar]

theorem if_trim_eq (t : String) : (if t ≠ "" then jsTrim t else "") = jsTrim t := by
  by_cases h : t = ""
  · simp [h, jsTrim_empty]
  · simp [h]

/-- Modelled from the claim (the mapping clause of C2): stringify and trim
every value, mapping null or missing values to the empty string. -/
def specMappingNormalize (d : Dict Value) : Dict String :=
  fromPairs (d.map (fun kv => (kv.1,
    match kv.2 with
    | .vnull => ""
    | .vundef => ""
    | v => jsTrim v.toText)))

/-- C2, counterexample: on the mapping entry PORT: 0 the code produces the
empty string (0 is falsy), while the claim's stringify-and-trim would produce
the string 0, so the claim as stated is false. -/
theorem c2_counterexample :
    normalizeKeyValuePairs (some (.dict [("PORT", .vnum 0)])) '=' = [("PORT", "")] ∧
    specMappingNormalize [("PORT", .vnum 0)] = [("PORT", "0")] ∧
    normalizeKeyValuePairs (some (.dict [("PORT", .vnum 0)])) '=' ≠
      specMappingNormalize [("PORT", .vnum 0)] := by
  refine ⟨by decide, by decide, by decide⟩

/-- C2 (amended): for list form each entry is split at the first equal sign
only (the value may itself contain equal signs), key and value are trimmed,
and a missing value yields the empty string; for mapping form truthy values
are stringified and trimmed, while falsy values (null, missing, the empty
string, the number 0, false) yield the empty string. -/
theorem c2_keyValue_normalization (items : List String) (d : Dict Value) :
    normalizeKeyValuePairs (some (.list items)) '=' =
      fromPairs (items.map (fun s =>
        (jsTrim (splitAtFirstEq s).1, jsTrim (splitAtFirstEq s).2))) ∧
    normalizeKeyValuePairs (some (.dict d)) '=' =
      fromPairs (d.map (fun kv => (kv.1, if kv.2.truthy then jsTrim kv.2.toText else ""))) := by
  constructor
  · show fromPairs _ = fromPairs _
    apply congrArg fromPairs
    apply List.map_congr_left
    intro s _
    simp [splitFirstJS_eq, if_trim_eq]
    intro h2
    rw [h2, jsTrim_empty]
  · rfl

/-- Modelled from the claim: the keys present in the source representation of
a key/value field (the object keys in mapping form, the trimmed parts before
the first equal sign in list form). -/
def sourceKeys : ListOrDict → List String
  | .dict d => dictKeys d
  | .list items => items.map (fun s => jsTrim (splitAtFirstEq s).1)

/-- C5: key/value normalization never drops a key: every key of the source
representation has an entry in the produced mapping. -/
theorem c5_no_key_dropped (lod : ListOrDict) (k : String)
    (h : k ∈ sourceKeys lod) :
    containsKey (normalizeKeyValuePairs (some lod) '=') k = true := by
  cases lod with
  | dict d =>
    show containsKey (fromPairs _) k = true
    rw [containsKey_fromPairs]
    simp only [sourceKeys, dictKeys] at h
    simp only [List.map_map, decide_eq_true_eq]
    simpa using h
  | list items =>
    show containsKey (fromPairs _) k = true
    rw [containsKey_fromPairs]
    simp only [sourceKeys] at h
    simp only [List.map_map, decide_eq_true_eq]
    have heq : (Prod.fst ∘ fun s =>
        (jsTrim (splitFirstJS '=' s).1,
         if (splitFirstJS '=' s).2 ≠ "" then jsTrim (splitFirstJS '=' s).2 else "")) =
        (fun s => jsTrim (splitAtFirstEq s).1) := by
      funext s
      simp [splitFirstJS_eq]
    rw [heq]
    exact h

/-- C5 witness: a list entry with spaces and an equal-containing value, and a
mapping entry, both keep their keys. -/
theorem c5_no_key_dropped_witness :
    "A" ∈ sourceKeys (.list [" A = b=c "]) ∧
    containsKey (normalizeKeyValuePairs (some (.list [" A = b=c "])) '=') "A" = true := by
  refine ⟨by decide, c5_no_key_dropped _ _ (by decide)⟩

/-- C10: a non-object input (string, number, boolean, null or undefined) is
rejected with the ValidationError Invalid composition format before the schema
validator or any migration step can run (the validator capability is never
consulted). -/
theorem c10_non_object_rejected
    (validateCap : SchemaVersion → RawInput → Except String Unit) (v : Value) :
    normalizeObjectToComposition validateCap (.scalar v) =
      .error (.validation "Invalid composition format") := rfl

/-- C6: short-syntax service volume validation.  An entry without a colon
fails as an invalid volume.  Otherwise, with source the part before the first
colon: a source with a directory component (a non-empty Node path.parse dir)
fails with Bind mounts are not allowed; a source that is not a declared
top-level volume name fails naming it; and the entry passes otherwise. -/
theorem c6_service_volume_validation (vol : String) (volumeNames : List String) :
    (vol.data.all (fun c => c ≠ ':') = true →
      validateServiceVolume vol volumeNames =
        .error (.validation ("Invalid volume: '" ++ vol ++ "'"))) ∧
    (vol.data.all (fun c => c ≠ ':') = false →
      posixDir (String.mk (vol.data.takeWhile (fun c => c ≠ ':'))) ≠ "" →
      validateServiceVolume vol volumeNames =
        .error (.validation "Bind mounts are not allowed")) ∧
    (vol.data.all (fun c => c ≠ ':') = false →
      posixDir (String.mk (vol.data.takeWhile (fun c => c ≠ ':'))) = "" →
      String.mk (vol.data.takeWhile (fun c => c ≠ ':')) ∉ volumeNames →
      validateServiceVolume vol volumeNames =
        .error (.validation ("Missing volume definition for '" ++
          String.mk (vol.data.takeWhile (fun c => c ≠ ':')) ++ "'"))) ∧
    (vol.data.all (fun c => c ≠ ':') = false →
      posixDir (String.mk (vol.data.takeWhile (fun c => c ≠ ':'))) = "" →
      String.mk (vol.data.takeWhile (fun c => c ≠ ':')) ∈ volumeNames →
      validateServiceVolume vol volumeNames = .ok ()) := by
  refine ⟨?_, ?_, ?_, ?_⟩
  · intro h1
    simp only [validateServiceVolume]
    rw [if_pos h1]
  · intro h1 h2
    simp only [validateServiceVolume]
    rw [if_neg (by rw [h1]; simp), if_pos h2]
  · intro h1 h2 h3
    simp only [validateServiceVolume]
    rw [if_neg (by rw [h1]; simp), if_neg (by simpa using h2), if_pos (by simpa using h3)]
  · intro h1 h2 h3
    simp only [validateServiceVolume]
    rw [if_neg (by rw [h1]; simp), if_neg (by simpa using h2), if_neg (by simpa using h3)]

/-- C6 witness: the four outcomes at the concrete entries of the test suite:
no colon, a relative and an absolute bind mount, an undeclared volume, and a
declared one. -/
theorem c6_service_volume_validation_witness :
    validateServiceVolume "thisIsNotAValidVolume" ["someVolume"] =
      .error (.validation "Invalid volume: 'thisIsNotAValidVolume'") ∧
    validateServiceVolume "./localPath:/some-place" ["someVolume"] =
      .error (.validation "Bind mounts are not allowed") ∧
    validateServiceVolume "/localPath:/some-place" ["someVolume"] =
      .error (.validation "Bind mounts are not allowed") ∧
    validateServiceVolume "someVolume:/some-place" ["someOtherVolume"] =
      .error (.validation "Missing volume definition for 'someVolume'") ∧
    validateServiceVolume "someVolume:/some-place" ["someVolume"] = .ok () :=
  ⟨(c6_service_volume_validation "thisIsNotAValidVolume" ["someVolume"]).1 (by decide),
   (c6_service_volume_validation "./localPath:/some-place" ["someVolume"]).2.1
     (by decide) (by decide),
   (c6_service_volume_validation "/localPath:/some-place" ["someVolume"]).2.1
     (by decide) (by decide),
   (c6_service_volume_validation "someVolume:/some-place" ["someOtherVolume"]).2.2.1
     (by decide) (by decide) (by decide),
   (c6_service_volume_validation "someVolume:/some-place" ["someVolume"]).2.2.2
     (by decide) (by decide) (by decide)⟩

theorem takeWhile_append_of_all {p : Char → Bool} (l1 l2 : List Char)
    (h : l1.all p = true) : (l1 ++ l2).takeWhile p = l1 ++ l2.takeWhile p := by
  induction l1 with
  | nil => simp
  | cons c rest ih =>
    simp only [List.all_cons, Bool.and_eq_true] at h
    simp [List.takeWhile_cons, h.1, ih h.2]

theorem dropWhile_append_of_all {p : Char → Bool} (l1 l2 : List Char)
    (h : l1.all p = true) : (l1 ++ l2).dropWhile p = l2.dropWhile p := by
  induction l1 with
  | nil => simp
  | cons c rest ih =>
    simp only [List.all_cons, Bool.and_eq_true] at h
    simp [List.dropWhile_cons, h.1, ih h.2]

theorem expandVars_nil (lookup : String → Option String) (n : Nat) :
    expandVars lookup n [] = .ok [] := by
  cases n <;> rfl

theorem except_bind_error {ε α β : Type} (e : ε) (f : α → Except ε β) :
    (Except.error e >>= f) = Except.error e := rfl

theorem except_bind_ok {ε α β : Type} (a : α) (f : α → Except ε β) :
    (Except.ok a >>= f) = f a := rfl

theorem except_fmap_ok {ε α β : Type} (f : α → β) (a : α) :
    (f <$> (Except.ok a : Except ε α)) = Except.ok (f a) := rfl

theorem except_fmap_error {ε α β : Type} (f : α → β) (e : ε) :
    (f <$> (Except.error e : Except ε α)) = Except.error e := rfl

theorem exceptMap_ok {ε α β : Type} (f : α → β) (a : α) :
    Except.map f (Except.ok a : Except ε α) = Except.ok (f a) := rfl

theorem exceptMap_error {ε α β : Type} (f : α → β) (e : ε) :
    Except.map f (Except.error e : Except ε α) = Except.error e := rfl

theorem mk_data (s : String) : String.mk s.data = s := rfl

/-- C7: the required form with a question mark and no colon inside braces
fails with the message exactly when the name is undefined in the lookup; a
defined name, even one bound to the empty string, substitutes its value
without error.  The name consists of name characters and the message contains
no closing brace. -/
theorem c7_required_interpolation (lookup : String → Option String) (name msg : String)
    (hname : name.data.all isNameChar = true)
    (hmsg : msg.data.all (fun c => c ≠ rbrace) = true) :
    interpolate lookup ("$" ++ String.mk [lbrace] ++ name ++ "?" ++ msg ++ String.mk [rbrace]) =
      (match lookup name with
       | none => Except.error msg
       | some v => Except.ok v) := by
  have hnb : name.data.all (fun c => c ≠ rbrace) = true := by
    rw [List.all_eq_true] at hname ⊢
    intro x hx
    have h1 := hname x hx
    simp only [decide_eq_true_eq]
    intro he
    rw [he] at h1
    exact absurd h1 (by decide)
  have hall1 : (name.data ++ '?' :: msg.data).all (fun c => decide (c ≠ rbrace)) = true := by
    rw [List.all_append]
    simp only [List.all_cons]
    rw [hnb, hmsg]
    simp [show ('?' : Char) ≠ rbrace from by decide]
  have hdata : ("$" ++ String.mk [lbrace] ++ name ++ "?" ++ msg ++ String.mk [rbrace]).data =
      '$' :: lbrace :: ((name.data ++ '?' :: msg.data) ++ [rbrace]) := by
    simp [String.data_append]
  have hall2 : (name.data ++ '?' :: msg.data).all (fun c => !decide (c = rbrace)) = true := by
    simpa using hall1
  have htake : (name.data ++ '?' :: (msg.data ++ [rbrace])).takeWhile
      (fun d => !decide (d = rbrace)) = name.data ++ '?' :: msg.data := by
    rw [show name.data ++ '?' :: (msg.data ++ [rbrace]) =
        (name.data ++ '?' :: msg.data) ++ [rbrace] by simp]
    rw [takeWhile_append_of_all _ _ hall2]
    simp [List.takeWhile_cons]
  have hdrop : (name.data ++ '?' :: (msg.data ++ [rbrace])).dropWhile
      (fun d => !decide (d = rbrace)) = [rbrace] := by
    rw [show name.data ++ '?' :: (msg.data ++ [rbrace]) =
        (name.data ++ '?' :: msg.data) ++ [rbrace] by simp]
    rw [dropWhile_append_of_all _ _ hall2]
    simp [List.dropWhile_cons]
  have hnm : (name.data ++ '?' :: msg.data).takeWhile isNameChar = name.data := by
    rw [takeWhile_append_of_all _ _ hname]
    simp [List.takeWhile_cons, show isNameChar '?' = false from by decide]
  have hdroplen : (name.data ++ '?' :: msg.data).drop name.data.length = '?' :: msg.data :=
    List.drop_left _ _
  have hbs : braceSubst lookup name ('?' :: msg.data) =
      (match lookup name with
       | some v => Except.ok v
       | none => Except.error (String.mk msg.data)) := rfl
  have hlb : ¬(lbrace = '$') := by decide
  unfold interpolate
  rw [hdata]
  simp only [List.length_cons]
  simp only [expandVars]
  cases hl : lookup name with
  | none =>
    simp [hlb, htake, hdrop, hnm, hdroplen, hbs, hl, mk_data,
      except_bind_error, except_bind_ok, except_fmap_ok, except_fmap_error,
      exceptMap_ok, exceptMap_error]
  | some v =>
    simp [hlb, htake, hdrop, hnm, hdroplen, hbs, hl, mk_data,
      except_bind_error, except_bind_ok, except_fmap_ok, except_fmap_error,
      exceptMap_ok, exceptMap_error, expandVars_nil]

/-- C7 witness: with VAR defined as the empty string, the required form with a
question mark substitutes the empty value without error, and errors with the
given message for an undefined name. -/
theorem c7_required_interpolation_witness :
    interpolate (fun n => if n = "VAR" then some "" else none)
      ("$" ++ String.mk [lbrace] ++ "UNDEF" ++ "?" ++ "err" ++ String.mk [rbrace]) =
      Except.error "err" ∧
    interpolate (fun n => if n = "VAR" then some "" else none)
      ("$" ++ String.mk [lbrace] ++ "VAR" ++ "?" ++ "err" ++ String.mk [rbrace]) =
      Except.ok "" := by
  constructor
  · have h := c7_required_interpolation (fun n => if n = "VAR" then some "" else none)
      "UNDEF" "err" (by decide) (by decide)
    simpa using h
  · have h := c7_required_interpolation (fun n => if n = "VAR" then some "" else none)
      "VAR" "err" (by decide) (by decide)
    simpa using h

theorem dictLookup_append {α : Type} (d1 d2 : Dict α) (k : String) :
    dictLookup (d1 ++ d2) k =
      (match dictLookup d1 k with
       | some v => some v
       | none => dictLookup d2 k) := by
  induction d1 with
  | nil => simp [dictLookup]
  | cons kv rest ih =>
    by_cases h : kv.1 = k
    · simp [dictLookup, h]
    · simp [dictLookup, h, ih]

/-- Modelled from the claim: the first env_file in declared order whose parsed
content defines the key provides the merged value. -/
def firstFileHit (cache : Dict (Dict String)) (k : String) : List String → Option String
  | [] => none
  | p :: rest =>
    match dictLookup ((dictLookup cache p).getD []) k with
    | some v => some v
    | none => firstFileHit cache k rest

theorem dictLookup_mergeFileVars (vars : Dict String) (env : Dict Value) (k : String) :
    dictLookup (mergeFileVars env vars) k =
      (match dictLookup env k with
       | some v => some v
       | none => (dictLookup vars k).map Value.vstr) := by
  induction vars generalizing env with
  | nil => cases h : dictLookup env k <;> simp [mergeFileVars, h, dictLookup]
  | cons kv rest ih =>
    obtain ⟨vk, vv⟩ := kv
    show dictLookup (mergeFileVars (if containsKey env vk then env
      else env ++ [(vk, Value.vstr vv)]) rest) k = _
    by_cases hk : vk = k
    · subst hk
      by_cases hc : containsKey env vk
      · rw [if_pos hc]
        rw [ih]
        obtain ⟨v, hv⟩ := Option.isSome_iff_exists.mp hc
        simp [dictLookup, hv]
      · rw [if_neg hc]
        rw [ih]
        have hnone : dictLookup env vk = none := by
          cases h : dictLookup env vk with
          | none => rfl
          | some v => exact absurd (by simp [containsKey, h]) hc
        rw [dictLookup_append]
        simp [hnone, dictLookup]
    · have hstep : dictLookup (if containsKey env vk then env
          else env ++ [(vk, Value.vstr vv)]) k = dictLookup env k := by
        by_cases hc : containsKey env vk
        · rw [if_pos hc]
        · rw [if_neg hc, dictLookup_append]
          cases h : dictLookup env k <;> simp [dictLookup, hk]
      rw [ih, hstep]
      simp [dictLookup, hk]

theorem dictLookup_foldl_merge (cache : Dict (Dict String)) (paths : List String)
    (env : Dict Value) (k : String) :
    dictLookup (paths.foldl
        (fun e p => mergeFileVars e ((dictLookup cache p).getD [])) env) k =
      (match dictLookup env k with
       | some v => some v
       | none => (firstFileHit cache k paths).map Value.vstr) := by
  induction paths generalizing env with
  | nil => cases h : dictLookup env k <;> simp [firstFileHit, h]
  | cons p rest ih =>
    simp only [List.foldl_cons]
    rw [ih, dictLookup_mergeFileVars]
    cases h : dictLookup env k with
    | some v => simp
    | none =>
      simp only []
      cases h2 : dictLookup ((dictLookup cache p).getD []) k <;>
        simp [firstFileHit, h2]

/-- C3: for a service with env_file paths, the merge adds each cached file's
variables in declared order without overwriting present keys, so for any key
the first writer wins: a pre-existing inline environment entry beats every
file and an earlier-listed file beats a later-listed one; env_file is removed
afterwards. -/
theorem c3_env_file_merge (cache : Dict (Dict String)) (s : Service)
    (paths : List String) (d : Dict Value)
    (hef : s.env_file = some (.listv paths))
    (henv : envDictOf s = d) :
    (assignEnvFilesToService cache s).env_file = none ∧
    ∀ k, dictLookup (envDictOf (assignEnvFilesToService cache s)) k =
      (match dictLookup d k with
       | some v => some v
       | none => (firstFileHit cache k paths).map Value.vstr) := by
  constructor
  · simp [assignEnvFilesToService, hef, envFileTruthy]
  · intro k
    have hassign : assignEnvFilesToService cache s =
        { s with
          environment := some (ListOrDict.dict (paths.foldl
            (fun e p => mergeFileVars e ((dictLookup cache p).getD [])) d)),
          env_file := none } := by
      rw [← henv]
      simp [assignEnvFilesToService, hef, envFileTruthy]
    rw [hassign]
    simp only [envDictOf]
    exact dictLookup_foldl_merge cache paths d k

/-- C3 witness: with an inline entry K, file a.env defining K and X, and file
b.env defining K, X and Y, the inline K wins, a.env's X beats b.env's, and
b.env supplies Y. -/
theorem c3_env_file_merge_witness :
    (∀ k, dictLookup (envDictOf (assignEnvFilesToService
        [("a.env", [("K", "froma"), ("X", "xa")]),
         ("b.env", [("K", "fromb"), ("X", "xb"), ("Y", "yb")])]
        { image := some "i",
          environment := some (.dict [("K", Value.vstr "inline")]),
          env_file := some (.listv ["a.env", "b.env"]) })) k =
      (match dictLookup [("K", Value.vstr "inline")] k with
       | some v => some v
       | none => (firstFileHit
           [("a.env", [("K", "froma"), ("X", "xa")]),
            ("b.env", [("K", "fromb"), ("X", "xb"), ("Y", "yb")])] k
           ["a.env", "b.env"]).map Value.vstr)) ∧
    dictLookup (envDictOf (assignEnvFilesToService
        [("a.env", [("K", "froma"), ("X", "xa")]),
         ("b.env", [("K", "fromb"), ("X", "xb"), ("Y", "yb")])]
        { image := some "i",
          environment := some (.dict [("K", Value.vstr "inline")]),
          env_file := some (.listv ["a.env", "b.env"]) })) "K" =
      some (Value.vstr "inline") ∧
    dictLookup (envDictOf (assignEnvFilesToService
        [("a.env", [("K", "froma"), ("X", "xa")]),
         ("b.env", [("K", "fromb"), ("X", "xb"), ("Y", "yb")])]
        { image := some "i",
          environment := some (.dict [("K", Value.vstr "inline")]),
          env_file := some (.listv ["a.env", "b.env"]) })) "X" =
      some (Value.vstr "xa") := by
  have h := c3_env_file_merge
    [("a.env", [("K", "froma"), ("X", "xa")]),
     ("b.env", [("K", "fromb"), ("X", "xb"), ("Y", "yb")])]
    { image := some "i",
      environment := some (.dict [("K", Value.vstr "inline")]),
      env_file := some (.listv ["a.env", "b.env"]) }
    ["a.env", "b.env"] [("K", Value.vstr "inline")] rfl rfl
  refine ⟨h.2, ?_, ?_⟩
  · rw [h.2 "K"]; decide
  · rw [h.2 "X"]; decide

theorem containsKey_append_single {α : Type} (d : Dict α) (p q : String) (v : α) :
    containsKey (d ++ [(p, v)]) q = (containsKey d q || decide (q = p)) := by
  rw [containsKey, dictLookup_append]
  cases h : dictLookup d q with
  | some w => simp [containsKey, h]
  | none =>
    simp only [containsKey, h]
    by_cases hq : q = p
    · simp [dictLookup, hq]
    · simp [dictLookup, hq, Ne.symm hq]

/-- The cache/trace invariant of the env-file read loop: the cache keys are
exactly the traced fetches, fetches are unique, and each traced path maps to
the parsed content the resolver delivered for it. -/
def ReadInv (resolver : String → List String) (st : Dict (Dict String) × List String) : Prop :=
  (∀ p, containsKey st.1 p = true ↔ p ∈ st.2) ∧
  st.2.Nodup ∧
  (∀ p ∈ st.2, dictLookup st.1 p = some (parseEnvFileLines (resolver p)))

theorem stepEnvPath_inv (resolver : String → List String)
    (st : Dict (Dict String) × List String) (p : String) (h : ReadInv resolver st) :
    ReadInv resolver (stepEnvPath resolver st p) ∧
    (∀ q, q ∈ (stepEnvPath resolver st p).2 ↔ q ∈ st.2 ∨ q = p) := by
  by_cases hc : containsKey st.1 p
  · have hp : p ∈ st.2 := (h.1 p).mp hc
    constructor
    · simpa [stepEnvPath, hc] using h
    · intro q
      simp only [stepEnvPath, if_pos hc]
      constructor
      · exact fun hq => Or.inl hq
      · rintro (hq | rfl)
        · exact hq
        · exact hp
  · have hpnot : p ∉ st.2 := fun hmem => hc ((h.1 p).mpr hmem)
    have hnone : dictLookup st.1 p = none := by
      cases hd : dictLookup st.1 p with
      | none => rfl
      | some v => exact absurd (by simp [containsKey, hd]) hc
    refine ⟨⟨?_, ?_, ?_⟩, ?_⟩
    · intro q
      simp only [stepEnvPath, if_neg hc]
      rw [containsKey_append_single]
      by_cases hq : q = p
      · simp [hq]
      · simp [hq, h.1 q]
    · simp only [stepEnvPath, if_neg hc]
      refine (h.2.1).append (by simp) ?_
      intro q hq hq2
      simp at hq2
      exact hpnot (hq2 ▸ hq)
    · intro q hq
      simp only [stepEnvPath, if_neg hc] at hq ⊢
      rw [dictLookup_append]
      simp only [List.mem_append, List.mem_singleton] at hq
      rcases hq with hq | rfl
      · rw [h.2.2 q hq]
      · rw [hnone]
        simp [dictLookup]
    · intro q
      simp [stepEnvPath, if_neg hc]

theorem foldl_stepEnvPath_inv (resolver : String → List String) (ps : List String) :
    ∀ st, ReadInv resolver st →
      ReadInv resolver (ps.foldl (stepEnvPath resolver) st) ∧
      (∀ q, q ∈ (ps.foldl (stepEnvPath resolver) st).2 ↔ q ∈ st.2 ∨ q ∈ ps) := by
  induction ps with
  | nil =>
    intro st h
    exact ⟨h, by simp⟩
  | cons p rest ih =>
    intro st h
    have hstep := stepEnvPath_inv resolver st p h
    have hrest := ih (stepEnvPath resolver st p) hstep.1
    refine ⟨hrest.1, fun q => ?_⟩
    rw [List.foldl_cons]
    rw [hrest.2 q, hstep.2 q]
    simp only [List.mem_cons]
    tauto

theorem readEnvFiles_inv (resolver : String → List String) (svcs : List (String × Service)) :
    ∀ st, ReadInv resolver st →
      ReadInv resolver (svcs.foldl
        (fun st2 kv => (envPathsOf kv.2).foldl (stepEnvPath resolver) st2) st) ∧
      (∀ q, q ∈ (svcs.foldl
          (fun st2 kv => (envPathsOf kv.2).foldl (stepEnvPath resolver) st2) st).2 ↔
        q ∈ st.2 ∨ q ∈ (svcs.map (fun kv => envPathsOf kv.2)).flatten) := by
  induction svcs with
  | nil =>
    intro st h
    exact ⟨h, by simp⟩
  | cons kv rest ih =>
    intro st h
    have h1 := foldl_stepEnvPath_inv resolver (envPathsOf kv.2) st h
    have h2 := ih _ h1.1
    refine ⟨h2.1, fun q => ?_⟩
    rw [List.foldl_cons]
    rw [h2.2 q, h1.2 q]
    simp only [List.map_cons, List.flatten_cons, List.mem_append]
    tauto

/-- The env_file paths referenced anywhere in a composition, in service order
then per-service declared order. -/
def refPaths (c : Composition) : List String :=
  (c.services.map (fun kv => envPathsOf kv.2)).flatten

/-- C4: reading the env files of a composition invokes the resolver exactly
once per distinct referenced path (the second component of the result is the
trace of resolver invocations), even when several services reference the same
path, and the cache serves every referencing service the same parsed
content. -/
theorem c4_resolver_called_once (resolver : String → List String) (c : Composition) :
    (∀ p, p ∈ (readEnvFilesFromComposition resolver c).2 ↔ p ∈ refPaths c) ∧
    (∀ p, p ∈ refPaths c →
      ((readEnvFilesFromComposition resolver c).2.count p = 1 ∧
       dictLookup (readEnvFilesFromComposition resolver c).1 p =
         some (parseEnvFileLines (resolver p)))) := by
  have h0 : ReadInv resolver ([], []) := by
    refine ⟨fun p => by simp [containsKey, dictLookup], by simp, by simp⟩
  have h := readEnvFiles_inv resolver c.services ([], []) h0
  have hiff : ∀ p, p ∈ (readEnvFilesFromComposition resolver c).2 ↔ p ∈ refPaths c := by
    intro p
    have := h.2 p
    simpa [readEnvFilesFromComposition, refPaths] using this
  refine ⟨hiff, fun p hp => ?_⟩
  have hmem : p ∈ (readEnvFilesFromComposition resolver c).2 := (hiff p).mpr hp
  constructor
  · exact List.count_eq_one_of_mem h.1.2.1 hmem
  · exact h.1.2.2 p hmem

/-- C4 witness: two services referencing shared.env make exactly one fetch of
it, and the cache holds its parsed content. -/
theorem c4_resolver_called_once_witness :
    (readEnvFilesFromComposition (fun _ => ["A=1"])
      { version := "2.1", services :=
        [("s1", { image := some "i", env_file := some (.listv ["shared.env"]) }),
         ("s2", { image := some "i", env_file := some (.listv ["shared.env"]) })] }).2.count
      "shared.env" = 1 ∧
    dictLookup (readEnvFilesFromComposition (fun _ => ["A=1"])
      { version := "2.1", services :=
        [("s1", { image := some "i", env_file := some (.listv ["shared.env"]) }),
         ("s2", { image := some "i", env_file := some (.listv ["shared.env"]) })] }).1
      "shared.env" = some (parseEnvFileLines ((fun _ => ["A=1"]) "shared.env")) :=
  (c4_resolver_called_once (fun _ => ["A=1"])
    { version := "2.1", services :=
      [("s1", { image := some "i", env_file := some (.listv ["shared.env"]) }),
       ("s2", { image := some "i", env_file := some (.listv ["shared.env"]) })] }).2
    "shared.env" (by decide)

theorem except_pure {ε α : Type} (a : α) : (pure a : Except ε α) = Except.ok a := rfl

theorem except_throw {ε α : Type} (e : ε) : (throw e : Except ε α) = Except.error e := rfl

theorem except_bind_ok_iff {ε α β : Type} (x : Except ε α) (f : α → Except ε β) (b : β) :
    (x >>= f) = .ok b ↔ ∃ a, x = .ok a ∧ f a = .ok b := by
  cases x with
  | error e => simp [except_bind_error]
  | ok a => simp [except_bind_ok]

theorem normalizeV21_ok_inv (svcs : Dict Service) (nets : Option (Dict (Option Network)))
    (vols : Option (Dict (Option Volume))) (comp : Composition)
    (h : normalizeV21 svcs nets vols = .ok comp) :
    ∃ vols2 svcs2 nets2,
      normalizeVolumesStep vols = .ok vols2 ∧
      mapValuesM (normalizeService (dictKeys svcs) (optDictKeys vols2)) svcs = .ok svcs2 ∧
      normalizeNetworksStep nets = .ok nets2 ∧
      comp = { version := "2.1", services := svcs2, networks := nets2,
               volumes := vols2 } := by
  simp only [normalizeV21] at h
  rw [except_bind_ok_iff] at h
  obtain ⟨vols2, hv, h⟩ := h
  rw [except_bind_ok_iff] at h
  obtain ⟨svcs2, hs, h⟩ := h
  rw [except_bind_ok_iff] at h
  obtain ⟨nets2, hn, h⟩ := h
  rw [except_pure] at h
  cases h
  exact ⟨vols2, svcs2, nets2, hv, hs, hn, rfl⟩

theorem normalizeV21_eq_ok (svcs : Dict Service) (nets : Option (Dict (Option Network)))
    (vols : Option (Dict (Option Volume))) (vols2 : Option (Dict (Option Volume)))
    (svcs2 : Dict Service) (nets2 : Option (Dict (Option Network)))
    (hv : normalizeVolumesStep vols = .ok vols2)
    (hs : mapValuesM (normalizeService (dictKeys svcs) (optDictKeys vols2)) svcs = .ok svcs2)
    (hn : normalizeNetworksStep nets = .ok nets2) :
    normalizeV21 svcs nets vols =
      .ok { version := "2.1", services := svcs2, networks := nets2, volumes := vols2 } := by
  simp only [normalizeV21, hv, hs, hn, except_bind_ok, except_pure]

theorem normalizeV21_version (svcs : Dict Service) (nets : Option (Dict (Option Network)))
    (vols : Option (Dict (Option Volume))) (comp : Composition)
    (h : normalizeV21 svcs nets vols = .ok comp) : comp.version = "2.1" := by
  obtain ⟨vols2, svcs2, nets2, _, _, _, hcomp⟩ := normalizeV21_ok_inv svcs nets vols comp h
  rw [hcomp]

theorem normalizeV2Doc_ok_version
    (vc : SchemaVersion → RawInput → Except String Unit) (d : V2Doc) (comp : Composition)
    (ver : SchemaVersion)
    (hif : (if d.version.toText = "2" ∨ d.version.toText = "2.0" then
              pure SchemaVersion.v2_0
            else if d.version.toText = "2.1" then pure SchemaVersion.v2_1
            else throw (CompError.validation "Unsupported composition version")) =
           (pure ver : Except CompError SchemaVersion))
    (h : normalizeObjectToComposition vc (.v2Object d) = .ok comp) :
    comp.version = "2.1" := by
  simp only [normalizeObjectToComposition] at h
  rw [hif] at h
  simp only [except_pure, except_bind_ok] at h
  split at h
  · simp [except_throw] at h
  · exact normalizeV21_version _ _ _ _ h

/-- C1 (amended): a document without a version field, or with version 2, 2.0,
2 as a number, or 2.1 is, when normalization succeeds, normalized to the
canonical version tag 2.1; a document declaring version 1.0 is instead
rejected with Unsupported composition version (the spec wrongly listed 1.0
among the accepted spellings: omitting the field is the only way to denote
the oldest version). -/
theorem c1_version_migration :
    (∀ (vc : SchemaVersion → RawInput → Except String Unit) (sv : Dict Service)
       (comp : Composition),
       normalizeObjectToComposition vc (.v1Object sv) = .ok comp →
       comp.version = "2.1") ∧
    (∀ (vc : SchemaVersion → RawInput → Except String Unit) (d : V2Doc)
       (comp : Composition),
       (d.version = .vstr "2" ∨ d.version = .vstr "2.0" ∨ d.version = .vstr "2.1" ∨
        d.version = .vnum 2) →
       normalizeObjectToComposition vc (.v2Object d) = .ok comp →
       comp.version = "2.1") ∧
    (∀ (vc : SchemaVersion → RawInput → Except String Unit) (d : V2Doc),
       d.version = .vstr "1.0" →
       normalizeObjectToComposition vc (.v2Object d) =
         .error (.validation "Unsupported composition version")) := by
  refine ⟨?_, ?_, ?_⟩
  · intro vc sv comp h
    simp only [normalizeObjectToComposition] at h
    split at h
    · simp [except_throw] at h
    · exact normalizeV21_version _ _ _ _ h
  · intro vc d comp hver h
    rcases hver with hv | hv | hv | hv
    · exact normalizeV2Doc_ok_version vc d comp SchemaVersion.v2_0 (by rw [hv]; rfl) h
    · exact normalizeV2Doc_ok_version vc d comp SchemaVersion.v2_0 (by rw [hv]; rfl) h
    · exact normalizeV2Doc_ok_version vc d comp SchemaVersion.v2_1 (by rw [hv]; rfl) h
    · exact normalizeV2Doc_ok_version vc d comp SchemaVersion.v2_0 (by rw [hv]; rfl) h
  · intro vc d hver
    simp only [normalizeObjectToComposition, hver]
    simp [Value.toText, except_throw, except_bind_error]

/-- C1 counterexample: a well-formed document declaring version 1.0 is not
normalized to a canonical 2.1 composition as the claim states: normalize
rejects it with Unsupported composition version, whatever the schema
validator would say. -/
theorem c1_counterexample :
    normalizeObjectToComposition (fun _ _ => .ok ())
      (.v2Object { version := .vstr "1.0",
                   services := some [("main", { image := some "some/image" })] }) =
      .error (.validation "Unsupported composition version") := rfl

/-- C1 witness: a document with the numeric version 2 and one image service
normalizes successfully, and the theorem yields the canonical tag. -/
theorem c1_version_migration_witness :
    normalizeObjectToComposition (fun _ _ => .ok ())
      (.v2Object { version := .vnum 2,
                   services := some [("main", { image := some "some/image" })] }) =
      .ok { version := "2.1", services := [("main", { image := some "some/image" })] } ∧
    ({ version := "2.1",
       services := [("main", { image := some "some/image" })] } : Composition).version =
      "2.1" := by
  have hok : normalizeObjectToComposition (fun _ _ => .ok ())
      (.v2Object { version := .vnum 2,
                   services := some [("main", { image := some "some/image" })] }) =
      .ok { version := "2.1", services := [("main", { image := some "some/image" })] } := rfl
  exact ⟨hok, c1_version_migration.2.1 (fun _ _ => .ok ()) _ _
    (Or.inr (Or.inr (Or.inr rfl))) hok⟩

theorem mapValuesM_keys {α β : Type} (f : α → Except CompError β) (d : Dict α)
    (d' : Dict β) (h : mapValuesM f d = .ok d') : dictKeys d' = dictKeys d := by
  induction d generalizing d' with
  | nil =>
    simp only [mapValuesM, except_pure] at h
    cases h
    rfl
  | cons kv rest ih =>
    obtain ⟨k, v⟩ := kv
    simp only [mapValuesM] at h
    rw [except_bind_ok_iff] at h
    obtain ⟨w, hw, h⟩ := h
    rw [except_bind_ok_iff] at h
    obtain ⟨rest2, hrest, h⟩ := h
    rw [except_pure] at h
    cases h
    simp only [dictKeys, List.map_cons]
    rw [show List.map Prod.fst rest2 = List.map Prod.fst rest from ih rest2 hrest]

theorem mapValuesM_mem {α β : Type} (f : α → Except CompError β) (d : Dict α)
    (d' : Dict β) (h : mapValuesM f d = .ok d') :
    ∀ kv' ∈ d', ∃ v, (kv'.1, v) ∈ d ∧ f v = .ok kv'.2 := by
  induction d generalizing d' with
  | nil =>
    simp only [mapValuesM, except_pure] at h
    cases h
    intro kv' hm
    simp at hm
  | cons kv rest ih =>
    obtain ⟨k, v⟩ := kv
    simp only [mapValuesM] at h
    rw [except_bind_ok_iff] at h
    obtain ⟨w, hw, h⟩ := h
    rw [except_bind_ok_iff] at h
    obtain ⟨rest2, hrest, h⟩ := h
    rw [except_pure] at h
    cases h
    intro kv' hm
    rcases List.mem_cons.mp hm with hm | hm
    · subst hm
      exact ⟨v, List.mem_cons_self _ _, hw⟩
    · obtain ⟨v0, hv0, hf⟩ := ih rest2 hrest kv' hm
      exact ⟨v0, List.mem_cons_of_mem _ hv0, hf⟩

theorem normalizeService_ok_iff (ns vs : List String) (s s' : Service) :
    normalizeService ns vs s = .ok s' ↔
      (checkImageBuild s = .ok () ∧
       checkDependsOn ns s.depends_on = .ok () ∧
       checkVolumes vs s.volumes = .ok () ∧
       ∃ build envFile labels,
         normalizeBuildField s.build = .ok build ∧
         normalizeEnvFileField s.env_file = .ok envFile ∧
         normalizeLabelsField s.labels = .ok labels ∧
         s' = { s with
                build := build, environment := normalizeEnvField s.environment,
                env_file := envFile, extra_hosts := normalizeExtraHostsField s.extra_hosts,
                labels := labels, ports := normalizePortsField s.ports }) := by
  constructor
  · intro h
    simp only [normalizeService] at h
    rw [except_bind_ok_iff] at h
    obtain ⟨u1, h1, h⟩ := h
    cases u1
    rw [except_bind_ok_iff] at h
    obtain ⟨build, hb, h⟩ := h
    rw [except_bind_ok_iff] at h
    obtain ⟨u2, h2, h⟩ := h
    cases u2
    rw [except_bind_ok_iff] at h
    obtain ⟨envFile, he, h⟩ := h
    rw [except_bind_ok_iff] at h
    obtain ⟨labels, hl, h⟩ := h
    rw [except_bind_ok_iff] at h
    obtain ⟨u3, h3, h⟩ := h
    cases u3
    rw [except_pure] at h
    cases h
    exact ⟨h1, h2, h3, build, envFile, labels, hb, he, hl, rfl⟩
  · rintro ⟨h1, h2, h3, build, envFile, labels, hb, he, hl, rfl⟩
    simp only [normalizeService, h1, hb, h2, he, hl, h3, except_bind_ok, except_pure]

theorem checkImageBuild_ok (s : Service) (h : checkImageBuild s = .ok ()) :
    (optStrTruthy s.image || buildTruthy s.build) = true := by
  simp only [checkImageBuild] at h
  cases hA : optStrTruthy s.image with
  | true => simp
  | false =>
    cases hB : buildTruthy s.build with
    | true => simp
    | false =>
      rw [hA, hB] at h
      simp at h

theorem normalizeBuild_shape (b b2 : BuildField) (h : normalizeBuild b = .ok b2) :
    ∃ bo, b2 = .bobj bo := by
  simp only [normalizeBuild] at h
  rw [except_bind_ok_iff] at h
  obtain ⟨labels, _, h⟩ := h
  rw [except_pure] at h
  cases h
  exact ⟨_, rfl⟩

theorem normalizeBuildField_truthy (ob build : Option BuildField)
    (h : normalizeBuildField ob = .ok build) : buildTruthy build = buildTruthy ob := by
  cases ob with
  | none =>
    simp only [normalizeBuildField, except_pure] at h
    cases h
    rfl
  | some b =>
    simp only [normalizeBuildField] at h
    by_cases ht : buildFieldTruthy b = true
    · rw [if_pos ht] at h
      rw [except_bind_ok_iff] at h
      obtain ⟨b2, hb2, h⟩ := h
      rw [except_pure] at h
      cases h
      obtain ⟨bo, rfl⟩ := normalizeBuild_shape b b2 hb2
      simp only [buildTruthy]
      exact ht.symm
    · rw [if_neg ht] at h
      rw [except_pure] at h
      cases h
      rfl

theorem normalizeService_presence (ns vs : List String) (s s' : Service)
    (h : normalizeService ns vs s = .ok s') :
    (optStrTruthy s'.image || buildTruthy s'.build) = true := by
  rw [normalizeService_ok_iff] at h
  obtain ⟨h1, _, _, build, envFile, labels, hb, _, _, rfl⟩ := h
  have hp := checkImageBuild_ok s h1
  have hbt := normalizeBuildField_truthy s.build build hb
  simpa [hbt] using hp

theorem createImageDescriptor_ok (n : String) (s : Service)
    (h : (optStrTruthy s.image || buildTruthy s.build) = true) :
    ∃ dsc, createImageDescriptor n s = .ok dsc ∧ dsc.serviceName = n := by
  unfold createImageDescriptor
  by_cases h1 : (optStrTruthy s.image && !buildTruthy s.build) = true
  · rw [if_pos h1]
    exact ⟨_, rfl, rfl⟩
  · rw [if_neg h1]
    have hb : buildTruthy s.build = true := by
      cases hB : buildTruthy s.build with
      | true => rfl
      | false =>
        rw [hB] at h h1
        simp at h
        rw [h] at h1
        simp at h1
    rw [if_neg (by simp [hb])]
    cases hsb : s.build with
    | none => rw [hsb] at hb; simp [buildTruthy] at hb
    | some b =>
      cases b with
      | bstr t => exact ⟨_, rfl, rfl⟩
      | bobj bo => exact ⟨_, rfl, rfl⟩

theorem mapM_descriptors (svcs : List (String × Service))
    (hp : ∀ kv ∈ svcs, (optStrTruthy kv.2.image || buildTruthy kv.2.build) = true) :
    ∃ ds, svcs.mapM (fun kv => createImageDescriptor kv.1 kv.2) = .ok ds ∧
      ds.map (fun dsc => dsc.serviceName) = dictKeys svcs := by
  induction svcs with
  | nil => exact ⟨[], rfl, rfl⟩
  | cons kv rest ih =>
    obtain ⟨ds, hds, hnames⟩ := ih (fun kv2 hm => hp kv2 (List.mem_cons_of_mem _ hm))
    obtain ⟨dsc, hdsc, hname⟩ :=
      createImageDescriptor_ok kv.1 kv.2 (hp kv (List.mem_cons_self _ _))
    refine ⟨dsc :: ds, ?_, ?_⟩
    · rw [List.mapM_cons]
      simp only [hdsc, except_bind_ok]
      rw [hds]
      simp only [except_bind_ok, except_pure]
    · simp [dictKeys, hname, hnames]

/-- The service map of a raw input document: the whole object for the v1
layout, the services field (defaulting to empty) for the v2 layout. -/
def inputServices : RawInput → Dict Service
  | .scalar _ => []
  | .v1Object sv => sv
  | .v2Object d => d.services.getD []

/-- The service keys of a raw input document, in iteration order. -/
def inputServiceKeys (input : RawInput) : List String := dictKeys (inputServices input)

/-- The preflighted networks map of a raw input document. -/
def preflightedNetworks : RawInput → Option (Dict (Option Network))
  | .v2Object d => d.networks.map (preflightEntries ({} : Network))
  | _ => none

/-- The preflighted volumes map of a raw input document. -/
def preflightedVolumes : RawInput → Option (Dict (Option Volume))
  | .v2Object d => d.volumes.map (preflightEntries ({} : Volume))
  | _ => none

theorem normalizeOTC_ok_inv (vc : SchemaVersion → RawInput → Except String Unit)
    (input : RawInput) (comp : Composition)
    (h : normalizeObjectToComposition vc input = .ok comp) :
    ∃ vols2 svcs2 nets2,
      normalizeVolumesStep (preflightedVolumes input) = .ok vols2 ∧
      mapValuesM (normalizeService (dictKeys (inputServices input)) (optDictKeys vols2))
        (inputServices input) = .ok svcs2 ∧
      normalizeNetworksStep (preflightedNetworks input) = .ok nets2 ∧
      comp = { version := "2.1", services := svcs2, networks := nets2,
               volumes := vols2 } := by
  cases input with
  | scalar v =>
    simp [normalizeObjectToComposition, except_throw] at h
  | v1Object sv =>
    simp only [normalizeObjectToComposition] at h
    split at h
    · simp [except_throw] at h
    · exact normalizeV21_ok_inv _ _ _ _ h
  | v2Object d =>
    simp only [normalizeObjectToComposition] at h
    rw [except_bind_ok_iff] at h
    obtain ⟨ver, _, h⟩ := h
    split at h
    · simp [except_throw] at h
    · exact normalizeV21_ok_inv _ _ _ _ h

/-- C9: on every input accepted by normalize, parse succeeds and returns
exactly one image descriptor per service, named after it, preserving the
iteration order of the input document's service keys. -/
theorem c9_parse_after_normalize (vc : SchemaVersion → RawInput → Except String Unit)
    (input : RawInput) (comp : Composition)
    (h : normalizeObjectToComposition vc input = .ok comp) :
    ∃ ds, parse comp = .ok ds ∧
      ds.length = comp.services.length ∧
      ds.map (fun dsc => dsc.serviceName) = dictKeys comp.services ∧
      dictKeys comp.services = inputServiceKeys input := by
  obtain ⟨vols2, svcs2, nets2, hv, hs, hn, hcomp⟩ := normalizeOTC_ok_inv vc input comp h
  subst hcomp
  have hkeys : dictKeys svcs2 = dictKeys (inputServices input) := mapValuesM_keys _ _ _ hs
  have hp : ∀ kv ∈ svcs2, (optStrTruthy kv.2.image || buildTruthy kv.2.build) = true := by
    intro kv hm
    obtain ⟨v, _, hf⟩ := mapValuesM_mem _ _ _ hs kv hm
    exact normalizeService_presence _ _ _ _ hf
  obtain ⟨ds, hds, hnames⟩ := mapM_descriptors svcs2 hp
  refine ⟨ds, ?_, ?_, ?_, ?_⟩
  · unfold parse
    rw [if_neg (by simp [defaultVersionTag])]
    exact hds
  · have hlen := congrArg List.length hnames
    simpa [dictKeys] using hlen
  · exact hnames
  · exact hkeys

/-- C9 witness: the two-service fixture (one build shorthand, one image) is
normalized and parsed into exactly two descriptors in declaration order. -/
theorem c9_parse_after_normalize_witness :
    ∃ ds, parse (Composition.mk "2.1"
        [("s1", { build := some (.bobj { context := "./" }) }),
         ("s2", { image := some "some/image" })] none none) = .ok ds ∧
      ds.length = (Composition.mk "2.1"
        [("s1", { build := some (.bobj { context := "./" }) }),
         ("s2", { image := some "some/image" })] none none).services.length ∧
      ds.map (fun dsc => dsc.serviceName) = dictKeys (Composition.mk "2.1"
        [("s1", { build := some (.bobj { context := "./" }) }),
         ("s2", { image := some "some/image" })] none none).services ∧
      dictKeys (Composition.mk "2.1"
        [("s1", { build := some (.bobj { context := "./" }) }),
         ("s2", { image := some "some/image" })] none none).services =
        inputServiceKeys (.v1Object
          [("s1", { build := some (.bstr "./") }),
           ("s2", { image := some "some/image" })]) :=
  c9_parse_after_normalize (fun _ _ => .ok ())
    (.v1Object [("s1", { build := some (.bstr "./") }),
                ("s2", { image := some "some/image" })])
    (Composition.mk "2.1"
      [("s1", { build := some (.bobj { context := "./" }) }),
       ("s2", { image := some "some/image" })] none none)
    (by rfl)

/-! Idempotence of the field normalizers, towards the idempotence of
normalize on its own outputs. -/

theorem dictKeys_dictInsert {α : Type} (d : Dict α) (k : String) (v : α) :
    dictKeys (dictInsert d k v) =
      if containsKey d k then dictKeys d else dictKeys d ++ [k] := by
  induction d with
  | nil => simp [dictInsert, dictKeys, containsKey, dictLookup]
  | cons kv rest ih =>
    obtain ⟨k0, v0⟩ := kv
    by_cases h : k0 = k
    · subst h
      simp [dictInsert, dictKeys, containsKey, dictLookup]
    · simp only [dictInsert, if_neg h, dictKeys, List.map_cons, containsKey, dictLookup,
        if_neg h]
      rw [show List.map Prod.fst (dictInsert rest k v) = dictKeys (dictInsert rest k v)
        from rfl, ih]
      by_cases hc : containsKey rest k
      · rw [if_pos hc, if_pos (by simpa [containsKey] using hc)]
        rfl
      · rw [if_neg hc, if_neg (by simpa [containsKey] using hc)]
        rfl

theorem containsKey_iff_mem_keys {α : Type} (d : Dict α) (k : String) :
    containsKey d k = true ↔ k ∈ dictKeys d := by
  induction d with
  | nil => simp [containsKey, dictLookup, dictKeys]
  | cons kv rest ih =>
    obtain ⟨k0, v0⟩ := kv
    by_cases h : k0 = k
    · subst h
      simp [containsKey, dictLookup, dictKeys]
    · simp only [containsKey, dictLookup, if_neg h, dictKeys, List.map_cons, List.mem_cons]
      constructor
      · intro hc
        exact Or.inr (ih.mp hc)
      · rintro (h2 | h2)
        · exact absurd h2.symm h
        · exact ih.mpr h2

theorem dictKeys_nodup_foldl_insert {α : Type} (ps : List (String × α)) :
    ∀ acc : Dict α, (dictKeys acc).Nodup →
      (dictKeys (ps.foldl (fun d kv => dictInsert d kv.1 kv.2) acc)).Nodup := by
  induction ps with
  | nil => intro acc h; exact h
  | cons kv rest ih =>
    intro acc h
    apply ih
    rw [dictKeys_dictInsert]
    by_cases hc : containsKey acc kv.1
    · rw [if_pos hc]; exact h
    · rw [if_neg hc]
      rw [List.nodup_append]
      refine ⟨h, List.nodup_singleton _, ?_⟩
      intro a ha hb
      simp at hb
      subst hb
      exact hc ((containsKey_iff_mem_keys acc kv.1).mpr ha)

theorem fromPairs_keys_nodup {α : Type} (ps : List (String × α)) :
    (dictKeys (fromPairs ps)).Nodup :=
  dictKeys_nodup_foldl_insert ps [] (by simp [dictKeys])

theorem dictInsert_of_not_contains {α : Type} (d : Dict α) (k : String) (v : α)
    (h : containsKey d k = false) : dictInsert d k v = d ++ [(k, v)] := by
  induction d with
  | nil => rfl
  | cons kv rest ih =>
    obtain ⟨k0, v0⟩ := kv
    simp only [containsKey, dictLookup] at h
    by_cases h0 : k0 = k
    · rw [if_pos h0] at h
      simp at h
    · rw [if_neg h0] at h
      simp only [dictInsert, if_neg h0, List.cons_append]
      rw [ih h]

theorem foldl_insert_of_nodup {α : Type} (ps : List (String × α)) :
    ∀ acc : Dict α, (dictKeys (acc ++ ps)).Nodup →
      ps.foldl (fun d kv => dictInsert d kv.1 kv.2) acc = acc ++ ps := by
  induction ps with
  | nil => intro acc _; simp
  | cons kv rest ih =>
    intro acc h
    obtain ⟨k, v⟩ := kv
    have hnc : containsKey acc k = false := by
      by_cases hc : containsKey acc k = true
      · exfalso
        have hk : k ∈ dictKeys acc := (containsKey_iff_mem_keys acc k).mp hc
        have : ¬(dictKeys (acc ++ (k, v) :: rest)).Nodup := by
          intro hn
          simp only [dictKeys, List.map_append, List.map_cons] at hn
          rw [List.nodup_append] at hn
          exact hn.2.2 (show k ∈ List.map Prod.fst acc from hk) (by simp)
        exact this h
      · simpa using hc
    simp only [List.foldl_cons]
    rw [dictInsert_of_not_contains acc k v hnc]
    have h2 : (dictKeys ((acc ++ [(k, v)]) ++ rest)).Nodup := by
      simpa [List.append_assoc] using h
    rw [ih (acc ++ [(k, v)]) h2]
    simp

theorem fromPairs_of_nodup {α : Type} (ps : List (String × α))
    (h : (ps.map Prod.fst).Nodup) : fromPairs ps = ps := by
  have := foldl_insert_of_nodup ps [] (by simpa [dictKeys] using h)
  simpa [fromPairs] using this

/-- A plain path segment: nonempty, not a dot, not a double dot, slash-free. -/
def plainSeg (s : Seg) : Prop :=
  s ≠ [] ∧ s ≠ ['.'] ∧ s ≠ ddot ∧ '/' ∉ s

theorem splitOnChar_not_mem (sep : Char) (cs : List Char) :
    ∀ s ∈ splitOnChar sep cs, sep ∉ s := by
  induction cs with
  | nil => intro s hs; simp [splitOnChar] at hs; simp [hs]
  | cons c rest ih =>
    intro s hs
    by_cases hc : c = sep
    · simp only [splitOnChar, if_pos hc, List.mem_cons] at hs
      rcases hs with hs | hs
      · simp [hs]
      · exact ih s hs
    · simp only [splitOnChar, if_neg hc] at hs
      rcases hsp : splitOnChar sep rest with _ | ⟨first, more⟩
      · exact absurd hsp (splitOnChar_ne_nil sep rest)
      · rw [hsp] at hs
        rcases List.mem_cons.mp hs with hs | hs
        · subst hs
          intro hm
          rcases List.mem_cons.mp hm with hm | hm
          · exact hc hm.symm
          · exact ih first (by rw [hsp]; exact List.mem_cons_self _ _) hm
        · exact ih s (by rw [hsp]; exact List.mem_cons_of_mem _ hs)

theorem splitOnChar_of_not_mem (sep : Char) (cs : List Char) (h : sep ∉ cs) :
    splitOnChar sep cs = [cs] := by
  induction cs with
  | nil => rfl
  | cons c rest ih =>
    have hc : ¬(c = sep) := fun hcc => h (by simp [hcc])
    have hr : sep ∉ rest := fun hm => h (List.mem_cons_of_mem _ hm)
    simp only [splitOnChar, if_neg hc, ih hr]

theorem splitOnChar_append_sep (sep : Char) (x t : List Char) (h : sep ∉ x) :
    splitOnChar sep (x ++ sep :: t) = x :: splitOnChar sep t := by
  induction x with
  | nil => simp [splitOnChar]
  | cons a as ih =>
    have ha : ¬(a = sep) := fun haa => h (by simp [haa])
    have has : sep ∉ as := fun hm => h (List.mem_cons_of_mem _ hm)
    simp only [List.cons_append, splitOnChar, if_neg ha]
    rw [show as.append (sep :: t) = as ++ sep :: t from rfl, ih has]

theorem splitOnChar_joinSegs (x : Seg) (rest : List Seg)
    (h : ∀ s ∈ x :: rest, '/' ∉ s) :
    splitOnChar '/' (joinSegs (x :: rest)) = x :: rest := by
  induction rest generalizing x with
  | nil => exact splitOnChar_of_not_mem '/' x (h x (List.mem_cons_self _ _))
  | cons y rs ih =>
    have hx : '/' ∉ x := h x (List.mem_cons_self _ _)
    show splitOnChar '/' (x ++ '/' :: joinSegs (y :: rs)) = x :: y :: rs
    rw [splitOnChar_append_sep '/' x _ hx]
    rw [ih y (fun s hs => h s (List.mem_cons_of_mem _ hs))]

theorem splitOnChar_joinSegs_slash (x : Seg) (rest : List Seg)
    (h : ∀ s ∈ x :: rest, '/' ∉ s) :
    splitOnChar '/' (joinSegs (x :: rest) ++ ['/']) = (x :: rest) ++ [[]] := by
  induction rest generalizing x with
  | nil =>
    have hx : '/' ∉ x := h x (List.mem_cons_self _ _)
    show splitOnChar '/' (x ++ '/' :: []) = [x, []]
    rw [splitOnChar_append_sep '/' x [] hx]
    rfl
  | cons y rs ih =>
    have hx : '/' ∉ x := h x (List.mem_cons_self _ _)
    show splitOnChar '/' ((x ++ '/' :: joinSegs (y :: rs)) ++ ['/']) = x :: (y :: rs) ++ [[]]
    rw [List.cons_append, List.append_assoc, List.cons_append]
    rw [splitOnChar_append_sep '/' x _ hx]
    rw [ih y (fun s hs => h s (List.mem_cons_of_mem _ hs))]

theorem normSegs_plain (allow : Bool) (L : List Seg) :
    ∀ acc : List Seg, (∀ s ∈ L, plainSeg s) →
      normSegs allow acc L = acc.reverse ++ L := by
  induction L with
  | nil => intro acc _; simp [normSegs]
  | cons s ls ih =>
    intro acc h
    obtain ⟨h1, h2, h3, _⟩ := h s (List.mem_cons_self _ _)
    rw [show normSegs allow acc (s :: ls) = normSegs allow (s :: acc) ls by
      simp only [normSegs]
      rw [if_neg (by simp [h1, h2]), if_neg h3]]
    rw [ih (s :: acc) (fun t ht => h t (List.mem_cons_of_mem _ ht))]
    simp

theorem normSegs_plain_trailing (allow : Bool) (L : List Seg) :
    ∀ acc : List Seg, (∀ s ∈ L, plainSeg s) →
      normSegs allow acc (L ++ [[]]) = acc.reverse ++ L := by
  induction L with
  | nil =>
    intro acc _
    simp [normSegs]
  | cons s ls ih =>
    intro acc h
    obtain ⟨h1, h2, h3, _⟩ := h s (List.mem_cons_self _ _)
    rw [show normSegs allow acc ((s :: ls) ++ [[]]) = normSegs allow (s :: acc) (ls ++ [[]]) by
      simp only [List.cons_append, normSegs]
      rw [if_neg (by simp [h1, h2]), if_neg h3]
      rfl]
    rw [ih (s :: acc) (fun t ht => h t (List.mem_cons_of_mem _ ht))]
    simp

theorem normSegs_structure (allow : Bool) (L : List Seg) :
    ∀ (R : List Seg) (j : Nat),
      (∀ s ∈ L, '/' ∉ s) → (∀ s ∈ R, plainSeg s) →
      ∃ (P : List Seg) (j2 : Nat), (∀ s ∈ P, plainSeg s) ∧
        normSegs allow (R ++ List.replicate j ddot) L = List.replicate j2 ddot ++ P := by
  induction L with
  | nil =>
    intro R j _ hR
    refine ⟨R.reverse, j, fun s hs => hR s (List.mem_reverse.mp hs), ?_⟩
    simp [normSegs, List.reverse_append, List.reverse_replicate]
  | cons s ls ih =>
    intro R j hL hR
    have hLs : ∀ t ∈ ls, '/' ∉ t := fun t ht => hL t (List.mem_cons_of_mem _ ht)
    by_cases h1 : s = [] ∨ s = ['.']
    · rw [show normSegs allow (R ++ List.replicate j ddot) (s :: ls) =
          normSegs allow (R ++ List.replicate j ddot) ls by
        simp only [normSegs]
        rw [if_pos h1]]
      exact ih R j hLs hR
    · by_cases h2 : s = ddot
      · subst h2
        rcases R with _ | ⟨r, R2⟩
        · rcases j with _ | k
          · rw [show (([] : List Seg) ++ List.replicate 0 ddot) = ([] : List Seg) by simp]
            rw [show normSegs allow [] (ddot :: ls) =
                if allow then normSegs allow [ddot] ls else normSegs allow [] ls by
              simp only [normSegs]
              simp [h1]]
            cases allow with
            | true =>
              rw [if_pos rfl]
              obtain ⟨P, j2, hP, heq⟩ := ih [] 1 hLs (by simp)
              exact ⟨P, j2, hP, by simpa using heq⟩
            | false =>
              rw [if_neg (by simp)]
              obtain ⟨P, j2, hP, heq⟩ := ih [] 0 hLs (by simp)
              exact ⟨P, j2, hP, by simpa using heq⟩
          · rw [show (([] : List Seg) ++ List.replicate (k + 1) ddot) =
                ddot :: List.replicate k ddot by simp [List.replicate_succ]]
            rw [show normSegs allow (ddot :: List.replicate k ddot) (ddot :: ls) =
                if allow then normSegs allow (ddot :: ddot :: List.replicate k ddot) ls
                else normSegs allow (ddot :: List.replicate k ddot) ls by
              simp only [normSegs]
              simp [h1]]
            cases allow with
            | true =>
              rw [if_pos rfl]
              obtain ⟨P, j2, hP, heq⟩ := ih [] (k + 2) hLs (by simp)
              refine ⟨P, j2, hP, ?_⟩
              rw [show (ddot :: ddot :: List.replicate k ddot) =
                  ([] : List Seg) ++ List.replicate (k + 2) ddot by
                simp [List.replicate_succ]]
              exact heq
            | false =>
              rw [if_neg (by simp)]
              obtain ⟨P, j2, hP, heq⟩ := ih [] (k + 1) hLs (by simp)
              refine ⟨P, j2, hP, ?_⟩
              rw [show (ddot :: List.replicate k ddot) =
                  ([] : List Seg) ++ List.replicate (k + 1) ddot by
                simp [List.replicate_succ]]
              exact heq
        · have hr : plainSeg r := hR r (List.mem_cons_self _ _)
          rw [show normSegs allow ((r :: R2) ++ List.replicate j ddot) (ddot :: ls) =
              normSegs allow (R2 ++ List.replicate j ddot) ls by
            simp only [List.cons_append, normSegs]
            simp [hr.2.2.1]
            intro hcon
            exact absurd hcon h1]
          exact ih R2 j hLs (fun t ht => hR t (List.mem_cons_of_mem _ ht))
      · have hplain : plainSeg s := by
          refine ⟨?_, ?_, h2, hL s (List.mem_cons_self _ _)⟩
          · intro hc; exact h1 (Or.inl hc)
          · intro hc; exact h1 (Or.inr hc)
        rw [show normSegs allow (R ++ List.replicate j ddot) (s :: ls) =
            normSegs allow ((s :: R) ++ List.replicate j ddot) ls by
          simp only [normSegs]
          rw [if_neg h1, if_neg h2]
          rfl]
        refine ih (s :: R) j hLs ?_
        intro t ht
        rcases List.mem_cons.mp ht with ht | ht
        · rw [ht]; exact hplain
        · exact hR t ht

theorem normSegs_split_structure (allow : Bool) (cs : List Char) :
    ∃ (P : List Seg) (j : Nat), (∀ s ∈ P, plainSeg s) ∧
      normSegs allow [] (splitOnChar '/' cs) = List.replicate j ddot ++ P := by
  obtain ⟨P, j2, hP, heq⟩ := normSegs_structure allow (splitOnChar '/' cs) [] 0
    (splitOnChar_not_mem '/' cs) (by simp)
  exact ⟨P, j2, hP, by simpa using heq⟩

theorem joinSegs_ne_nil (x : Seg) (rest : List Seg) (hx : x ≠ []) :
    joinSegs (x :: rest) ≠ [] := by
  cases rest with
  | nil => simpa [joinSegs] using hx
  | cons y rs => simp [joinSegs]

theorem joinSegs_head? (x : Seg) (rest : List Seg) (hx : x ≠ []) :
    (joinSegs (x :: rest)).head? = x.head? := by
  cases rest with
  | nil => rfl
  | cons y rs =>
    show (x ++ '/' :: joinSegs (y :: rs)).head? = x.head?
    exact head?_append_left x _ hx

theorem joinSegs_getLast?_mem (x : Seg) (rest : List Seg)
    (h : ∀ s ∈ x :: rest, s ≠ []) :
    ∃ z ∈ x :: rest, (joinSegs (x :: rest)).getLast? = z.getLast? := by
  induction rest generalizing x with
  | nil => exact ⟨x, List.mem_cons_self _ _, rfl⟩
  | cons y rs ih =>
    obtain ⟨z, hz, hgl⟩ := ih y (fun s hs => h s (List.mem_cons_of_mem _ hs))
    refine ⟨z, List.mem_cons_of_mem _ hz, ?_⟩
    have hJ : joinSegs (y :: rs) ≠ [] := joinSegs_ne_nil y rs (h y (by simp))
    show (x ++ '/' :: joinSegs (y :: rs)).getLast? = z.getLast?
    rw [getLast?_append_right x _ (by simp)]
    rw [show ('/' :: joinSegs (y :: rs)) = ['/'] ++ joinSegs (y :: rs) from rfl]
    rw [getLast?_append_right ['/'] _ hJ, hgl]

theorem lastIsSlash_joinSegs (x : Seg) (rest : List Seg)
    (h : ∀ s ∈ x :: rest, plainSeg s) :
    lastIsSlash (joinSegs (x :: rest)) = false := by
  obtain ⟨z, hz, hgl⟩ := joinSegs_getLast?_mem x rest (fun s hs => (h s hs).1)
  obtain ⟨hz1, _, _, hz4⟩ := h z hz
  unfold lastIsSlash
  rw [hgl]
  cases hgz : z.getLast? with
  | none => rfl
  | some c =>
    have hc : c ∈ z := by
      have h2 := List.getLast?_eq_getLast z (by simpa using hz1)
      rw [h2] at hgz
      cases hgz
      exact List.getLast_mem _
    have hcs : ¬(c = '/') := fun hcc => hz4 (hcc ▸ hc)
    simp [hcs]

theorem lastIsSlash_append_slash (J : List Char) :
    lastIsSlash (J ++ ['/']) = true := by
  unfold lastIsSlash
  rw [getLast?_append_right J ['/'] (by simp)]
  simp

theorem pathNormalize_cons (d : Char) (ds : List Char) :
    pathNormalize (String.mk (d :: ds)) =
      (let isAbs := decide (d = '/')
       let trailing := lastIsSlash (d :: ds)
       let core := joinSegs (normSegs (!isAbs) [] (splitOnChar '/' (d :: ds)))
       let core := if core.isEmpty && !isAbs then ['.'] else core
       let core := if !core.isEmpty && trailing then core ++ ['/'] else core
       String.mk (if isAbs then '/' :: core else core)) := rfl

theorem pathNormalize_joinSegs (P : List Seg) (hP : ∀ s ∈ P, plainSeg s) (hne : P ≠ []) :
    pathNormalize (String.mk (joinSegs P)) = String.mk (joinSegs P) := by
  obtain ⟨x, rest, rfl⟩ := List.exists_cons_of_ne_nil hne
  have hx : plainSeg x := hP x (List.mem_cons_self _ _)
  rcases hJ : joinSegs (x :: rest) with _ | ⟨d, ds⟩
  · exact absurd hJ (joinSegs_ne_nil x rest hx.1)
  · have hd : ¬(d = '/') := by
      intro hdd
      have h1 : (joinSegs (x :: rest)).head? = x.head? := joinSegs_head? x rest hx.1
      rw [hJ] at h1
      have hmem : d ∈ x := by
        cases hx2 : x with
        | nil => exact absurd hx2 hx.1
        | cons a as =>
          rw [hx2] at h1
          simp only [List.head?_cons, Option.some.injEq] at h1
          rw [h1]
          exact List.mem_cons_self _ _
      exact hx.2.2.2 (hdd ▸ hmem)
    have hdec : decide (d = '/') = false := by simp [hd]
    have htr : lastIsSlash (d :: ds) = false := by
      rw [← hJ]; exact lastIsSlash_joinSegs x rest hP
    have hsplit : splitOnChar '/' (d :: ds) = x :: rest := by
      rw [← hJ]; exact splitOnChar_joinSegs x rest (fun s hs => (hP s hs).2.2.2)
    have hns : normSegs true [] (x :: rest) = x :: rest := by
      have h2 := normSegs_plain true (x :: rest) [] hP
      simpa using h2
    rw [pathNormalize_cons]
    simp [hdec, htr, hsplit, hns, hJ]

theorem pathNormalize_joinSegs_slash (P : List Seg) (hP : ∀ s ∈ P, plainSeg s)
    (hne : P ≠ []) :
    pathNormalize (String.mk (joinSegs P ++ ['/'])) = String.mk (joinSegs P ++ ['/']) := by
  obtain ⟨x, rest, rfl⟩ := List.exists_cons_of_ne_nil hne
  have hx : plainSeg x := hP x (List.mem_cons_self _ _)
  rcases hJ : joinSegs (x :: rest) with _ | ⟨d, ds⟩
  · exact absurd hJ (joinSegs_ne_nil x rest hx.1)
  · have hd : ¬(d = '/') := by
      intro hdd
      have h1 : (joinSegs (x :: rest)).head? = x.head? := joinSegs_head? x rest hx.1
      rw [hJ] at h1
      have hmem : d ∈ x := by
        cases hx2 : x with
        | nil => exact absurd hx2 hx.1
        | cons a as =>
          rw [hx2] at h1
          simp only [List.head?_cons, Option.some.injEq] at h1
          rw [h1]
          exact List.mem_cons_self _ _
      exact hx.2.2.2 (hdd ▸ hmem)
    have hdec : decide (d = '/') = false := by simp [hd]
    have htr : lastIsSlash (d :: (ds ++ ['/'])) = true := lastIsSlash_append_slash (d :: ds)
    have hsplit : splitOnChar '/' (d :: (ds ++ ['/'])) = (x :: rest) ++ [[]] := by
      rw [show (d :: (ds ++ ['/'])) = ((d :: ds) ++ ['/']) from rfl, ← hJ]
      exact splitOnChar_joinSegs_slash x rest (fun s hs => (hP s hs).2.2.2)
    have hns : normSegs true [] (x :: (rest ++ [[]])) = x :: rest := by
      have h2 := normSegs_plain_trailing true (x :: rest) [] hP
      simpa using h2
    rw [show ((d :: ds) ++ ['/']) = d :: (ds ++ ['/']) from rfl]
    rw [pathNormalize_cons]
    rw [show (d :: (ds ++ ['/'])) = ((d :: ds) ++ ['/']) from rfl]
    simp [hdec, htr, hsplit, hns, hJ]

theorem joinSegs_ddot_head (L : List Seg) :
    ∃ t, joinSegs (ddot :: L) = '.' :: '.' :: t := by
  cases L with
  | nil => exact ⟨[], rfl⟩
  | cons y rs => exact ⟨'/' :: joinSegs (y :: rs), rfl⟩

theorem leadsWith_ddot (t : List Char) : leadsWith ('.' :: '.' :: t) ddot = true := by
  simp [leadsWith, ddot]

theorem data_mk (cs : List Char) : (String.mk cs).data = cs := rfl

theorem pathIsAbsolute_mk_cons (c : Char) (cs : List Char) :
    pathIsAbsolute (String.mk (c :: cs)) = decide (c = '/') := rfl

theorem pathNormalize_forms (p : String)
    (habs : pathIsAbsolute (pathNormalize p) = false)
    (hdd : leadsWith (pathNormalize p).data ddot = false) :
    pathNormalize p = "." ∨ pathNormalize p = "./" ∨
    ∃ P, (∀ s ∈ P, plainSeg s) ∧ P ≠ [] ∧
      (pathNormalize p = String.mk (joinSegs P) ∨
       pathNormalize p = String.mk (joinSegs P ++ ['/'])) := by
  rcases hp : p.data with _ | ⟨c0, rest0⟩
  · left
    unfold pathNormalize
    rw [hp]
  · have heq : pathNormalize p =
        (let isAbs := decide (c0 = '/')
         let trailing := lastIsSlash (c0 :: rest0)
         let core := joinSegs (normSegs (!isAbs) [] (splitOnChar '/' (c0 :: rest0)))
         let core := if core.isEmpty && !isAbs then ['.'] else core
         let core := if !core.isEmpty && trailing then core ++ ['/'] else core
         String.mk (if isAbs then '/' :: core else core)) := by
      unfold pathNormalize
      rw [hp]
    by_cases hab : c0 = '/'
    · exfalso
      rw [heq] at habs
      rw [show decide (c0 = '/') = true by simp [hab]] at habs
      simp [pathIsAbsolute_mk_cons] at habs
    · have hdec : decide (c0 = '/') = false := by simp [hab]
      have heq2 : pathNormalize p =
          (let core := joinSegs (normSegs true [] (splitOnChar '/' (c0 :: rest0)))
           let core2 := if core.isEmpty then ['.'] else core
           String.mk (if (!core2.isEmpty && lastIsSlash (c0 :: rest0)) = true
                      then core2 ++ ['/'] else core2)) := by
        rw [heq, hdec]
        simp
      clear heq
      obtain ⟨P, j, hP, hns⟩ := normSegs_split_structure true (c0 :: rest0)
      rcases j with _ | k
      · simp only [List.replicate, List.nil_append] at hns
        rw [hns] at heq2
        rcases hPc : P with _ | ⟨x, rest⟩
        · rw [hPc] at heq2
          by_cases htr : lastIsSlash (c0 :: rest0) = true
          · right; left
            rw [heq2]
            simp [joinSegs, htr]
          · left
            rw [heq2]
            have htr2 : lastIsSlash (c0 :: rest0) = false := by
              cases h2 : lastIsSlash (c0 :: rest0)
              · rfl
              · exact absurd h2 htr
            simp [joinSegs, htr2]
        · right; right
          refine ⟨x :: rest, by rw [← hPc]; exact hP, by simp, ?_⟩
          rw [hPc] at heq2
          have hje : (joinSegs (x :: rest)).isEmpty = false := by
            have h2 := joinSegs_ne_nil x rest (hP x (by rw [hPc]; simp)).1
            cases h3 : joinSegs (x :: rest)
            · exact absurd h3 h2
            · rfl
          by_cases htr : lastIsSlash (c0 :: rest0) = true
          · right
            rw [heq2]
            simp [hje, htr]
          · left
            rw [heq2]
            have htr2 : lastIsSlash (c0 :: rest0) = false := by
              cases h2 : lastIsSlash (c0 :: rest0)
              · rfl
              · exact absurd h2 htr
            simp [hje, htr2]
      · exfalso
        rw [show List.replicate (k + 1) ddot ++ P = ddot :: (List.replicate k ddot ++ P) by
          simp [List.replicate_succ]] at hns
        obtain ⟨t, hjd⟩ := joinSegs_ddot_head (List.replicate k ddot ++ P)
        rw [hns, hjd] at heq2
        have hform : ∃ t2, pathNormalize p = String.mk ('.' :: '.' :: t2) := by
          rw [heq2]
          by_cases htr : lastIsSlash (c0 :: rest0) = true
          · refine ⟨t ++ ['/'], ?_⟩
            simp [htr]
          · have htr2 : lastIsSlash (c0 :: rest0) = false := by
              cases h2 : lastIsSlash (c0 :: rest0)
              · rfl
              · exact absurd h2 htr
            refine ⟨t, ?_⟩
            simp [htr2]
        obtain ⟨t2, hform⟩ := hform
        rw [hform, data_mk, leadsWith_ddot] at hdd
        simp at hdd

theorem pathNormalize_dot : pathNormalize "." = "." := rfl

theorem pathNormalize_dotSlash : pathNormalize "./" = "./" := rfl

theorem pathNormalize_fix (p : String)
    (habs : pathIsAbsolute (pathNormalize p) = false)
    (hdd : leadsWith (pathNormalize p).data ddot = false) :
    pathNormalize (pathNormalize p) = pathNormalize p := by
  rcases pathNormalize_forms p habs hdd with h | h | ⟨P, hP, hne, h | h⟩
  · rw [h]; exact pathNormalize_dot
  · rw [h]; exact pathNormalize_dotSlash
  · rw [h]; exact pathNormalize_joinSegs P hP hne
  · rw [h]; exact pathNormalize_joinSegs_slash P hP hne

theorem contains_true_iff (l : List String) (a : String) :
    l.contains a = true ↔ a ∈ l := List.elem_iff

theorem bool_eq_false {b : Bool} (h : ¬(b = true)) : b = false := by
  cases b
  · rfl
  · exact absurd rfl h

/-- The conditions addEnvPath guarantees of every path it accepts. -/
def acceptedPath (q : String) : Prop :=
  pathIsAbsolute q = false ∧ leadsWith q.data ddot = false ∧
  q.data.contains '*' = false ∧ pathNormalize q = q

theorem addEnvPath_ok_inv (acc : List String) (p : String) (acc2 : List String)
    (h : addEnvPath acc p = .ok acc2) :
    acceptedPath (pathNormalize p) ∧
      acc2 = (if acc.contains (pathNormalize p) then acc
              else acc ++ [pathNormalize p]) := by
  simp only [addEnvPath] at h
  by_cases h1 : pathIsAbsolute (pathNormalize p) = true
  · rw [if_pos h1] at h; cases h
  · rw [if_neg h1] at h
    by_cases h2 : leadsWith (pathNormalize p).data ddot = true
    · rw [if_pos h2] at h; cases h
    · rw [if_neg h2] at h
      by_cases h3 : (pathNormalize p).data.contains '*' = true
      · rw [if_pos h3] at h; cases h
      · rw [if_neg h3] at h
        cases h
        have hb1 := bool_eq_false h1
        have hb2 := bool_eq_false h2
        exact ⟨⟨hb1, hb2, bool_eq_false h3, pathNormalize_fix p hb1 hb2⟩, rfl⟩

theorem foldlM_addEnvPath_inv (items : List String) :
    ∀ acc out : List String,
      items.foldlM addEnvPath acc = .ok out →
      (∀ q ∈ acc, acceptedPath q) → acc.Nodup →
      (∀ q ∈ out, acceptedPath q) ∧ out.Nodup := by
  induction items with
  | nil =>
    intro acc out h hacc hnd
    simp only [List.foldlM_nil, except_pure] at h
    cases h
    exact ⟨hacc, hnd⟩
  | cons p rest ih =>
    intro acc out h hacc hnd
    rw [List.foldlM_cons] at h
    rw [except_bind_ok_iff] at h
    obtain ⟨acc2, hstep, h⟩ := h
    obtain ⟨haccept, hacc2⟩ := addEnvPath_ok_inv acc p acc2 hstep
    by_cases hc : acc.contains (pathNormalize p) = true
    · rw [if_pos hc] at hacc2
      rw [hacc2] at h
      exact ih acc out h hacc hnd
    · rw [if_neg hc] at hacc2
      rw [hacc2] at h
      refine ih _ out h ?_ ?_
      · intro q hq
        rcases List.mem_append.mp hq with hq | hq
        · exact hacc q hq
        · simp only [List.mem_singleton] at hq
          rw [hq]
          exact haccept
      · rw [List.nodup_append]
        refine ⟨hnd, List.nodup_singleton _, ?_⟩
        intro a ha hb
        simp only [List.mem_singleton] at hb
        subst hb
        exact hc ((contains_true_iff _ _).mpr ha)

theorem foldlM_addEnvPath_id (out : List String) :
    ∀ acc : List String,
      (∀ q ∈ out, acceptedPath q) → (acc ++ out).Nodup →
      out.foldlM addEnvPath acc = .ok (acc ++ out) := by
  induction out with
  | nil =>
    intro acc _ _
    simp [List.foldlM_nil, except_pure]
  | cons q rest ih =>
    intro acc hq hnd
    rw [List.foldlM_cons]
    obtain ⟨h1, h2, h3, h4⟩ := hq q (List.mem_cons_self _ _)
    have hqnotin : q ∉ acc := by
      rw [List.nodup_append] at hnd
      intro hmem
      exact hnd.2.2 hmem (List.mem_cons_self _ _)
    have hcontains : acc.contains q = false := by
      apply bool_eq_false
      intro hcc
      exact hqnotin ((contains_true_iff _ _).mp hcc)
    have hstep : addEnvPath acc q = .ok (acc ++ [q]) := by
      simp only [addEnvPath]
      rw [h4, if_neg (by rw [h1]; simp), if_neg (by rw [h2]; simp),
          if_neg (by rw [h3]; simp), hcontains]
      simp
    rw [hstep]
    simp only [except_bind_ok]
    have hres := ih (acc ++ [q]) (fun t ht => hq t (List.mem_cons_of_mem _ ht))
      (by rw [List.append_assoc]; exact hnd)
    rw [hres]
    simp

theorem normalizeAndValidateFilePath_inv (ef : StringOrList) (ef2 : StringOrList)
    (h : normalizeAndValidateFilePath ef = .ok ef2) :
    ∃ out, ef2 = .listv out ∧
      (match ef with | .strv s => [s] | .listv l => l).foldlM addEnvPath [] = .ok out := by
  simp only [normalizeAndValidateFilePath] at h
  rw [except_bind_ok_iff] at h
  obtain ⟨out, hout, h⟩ := h
  rw [except_pure] at h
  cases h
  exact ⟨out, rfl, hout⟩

theorem normalizeEnvFileField_idem (x y : Option StringOrList)
    (h : normalizeEnvFileField x = .ok y) :
    normalizeEnvFileField y = .ok y := by
  cases x with
  | none =>
    simp only [normalizeEnvFileField, except_pure] at h
    cases h
    rfl
  | some ef =>
    simp only [normalizeEnvFileField] at h
    by_cases ht : envFileTruthy ef = true
    · rw [if_pos ht] at h
      rw [except_bind_ok_iff] at h
      obtain ⟨ef2, hef2, h⟩ := h
      rw [except_pure] at h
      cases h
      obtain ⟨out, rfl, hfold⟩ := normalizeAndValidateFilePath_inv ef ef2 hef2
      have hinv := foldlM_addEnvPath_inv _ [] out hfold (by simp) List.nodup_nil
      have hid := foldlM_addEnvPath_id out [] hinv.1 (by simpa using hinv.2)
      have hnav : normalizeAndValidateFilePath (.listv out) = .ok (.listv out) := by
        simp only [normalizeAndValidateFilePath]
        rw [hid]
        simp [except_bind_ok, except_pure]
      simp only [normalizeEnvFileField]
      rw [if_pos (show envFileTruthy (.listv out) = true from rfl)]
      rw [hnav]
      simp [except_bind_ok, except_pure]
    · rw [if_neg ht] at h
      rw [except_pure] at h
      cases h
      simp only [normalizeEnvFileField]
      rw [if_neg ht]
      rfl

theorem nkvp_value_trim_fixed (obj : Option ListOrDict) (sep : Char) :
    ∀ kv ∈ normalizeKeyValuePairs obj sep, jsTrim kv.2 = kv.2 := by
  intro kv hm
  cases obj with
  | none => simp [normalizeKeyValuePairs] at hm
  | some lod =>
    cases lod with
    | dict d =>
      simp only [normalizeKeyValuePairs] at hm
      have hm2 := mem_fromPairs _ _ hm
      simp only [List.mem_map] at hm2
      obtain ⟨p, _, hp⟩ := hm2
      rw [← hp]
      by_cases ht : p.2.truthy = true
      · simp only [if_pos ht]
        exact jsTrim_idem _
      · simp only [if_neg ht]
        exact jsTrim_empty
    | list items =>
      simp only [normalizeKeyValuePairs] at hm
      have hm2 := mem_fromPairs _ _ hm
      simp only [List.mem_map] at hm2
      obtain ⟨s, _, hp⟩ := hm2
      rw [← hp]
      by_cases ht : (splitFirstJS sep s).2 ≠ ""
      · simp only [if_pos ht]
        exact jsTrim_idem _
      · simp only [if_neg ht]
        exact jsTrim_empty

theorem nkvp_keys_nodup (obj : Option ListOrDict) (sep : Char) :
    (dictKeys (normalizeKeyValuePairs obj sep)).Nodup := by
  cases obj with
  | none => simp [normalizeKeyValuePairs, dictKeys]
  | some lod =>
    cases lod with
    | dict d => exact fromPairs_keys_nodup _
    | list items => exact fromPairs_keys_nodup _

theorem nkvp_toValueDict (d : Dict String) (sep : Char)
    (hfix : ∀ kv ∈ d, jsTrim kv.2 = kv.2) (hnd : (dictKeys d).Nodup) :
    normalizeKeyValuePairs (some (.dict (toValueDict d))) sep = d := by
  simp only [normalizeKeyValuePairs, toValueDict, List.map_map]
  have hmap : d.map ((fun kv => (kv.1, if Value.truthy kv.2 then jsTrim kv.2.toText else "")) ∘
      (fun kv => (kv.1, Value.vstr kv.2))) = d := by
    induction d with
    | nil => rfl
    | cons kv rest ih =>
      obtain ⟨k, v⟩ := kv
      simp only [List.map_cons, Function.comp]
      rw [ih (fun t ht => hfix t (List.mem_cons_of_mem _ ht)) (by
        simp only [dictKeys, List.map_cons] at hnd
        exact hnd.of_cons)]
      have hv : (if Value.truthy (Value.vstr v) then jsTrim (Value.vstr v).toText else "") = v := by
        by_cases hve : v = ""
        · rw [hve]
          rfl
        · rw [if_pos (by simp [Value.truthy, hve]), show (Value.vstr v).toText = v from rfl]
          exact hfix (k, v) (List.mem_cons_self _ _)
      rw [hv]
  rw [hmap]
  exact fromPairs_of_nodup d hnd

theorem nkvp_idem (obj : Option ListOrDict) (sep sep2 : Char) :
    normalizeKeyValuePairs
        (some (.dict (toValueDict (normalizeKeyValuePairs obj sep)))) sep2 =
      normalizeKeyValuePairs obj sep :=
  nkvp_toValueDict _ sep2 (nkvp_value_trim_fixed obj sep) (nkvp_keys_nodup obj sep)

theorem normalizeEnvField_idem (x : Option ListOrDict) :
    normalizeEnvField (normalizeEnvField x) = normalizeEnvField x := by
  cases x with
  | none => rfl
  | some e =>
    simp only [normalizeEnvField]
    rw [nkvp_idem (some e) '=' '=']

theorem normalizeLabelsField_idem (x y : Option ListOrDict)
    (h : normalizeLabelsField x = .ok y) : normalizeLabelsField y = .ok y := by
  cases x with
  | none =>
    simp only [normalizeLabelsField, except_pure] at h
    cases h
    rfl
  | some l =>
    simp only [normalizeLabelsField] at h
    rw [except_bind_ok_iff] at h
    obtain ⟨u, hval, h⟩ := h
    cases u
    rw [except_pure] at h
    cases h
    simp only [normalizeLabelsField]
    rw [nkvp_idem (some l) '=' '=', hval]
    simp [except_bind_ok, except_pure]

theorem boOf_bobj (b : BuildObj) : boOf (.bobj b) = b := rfl

theorem normalizeBuild_idem (b b2 : BuildField) (h : normalizeBuild b = .ok b2) :
    normalizeBuild b2 = .ok b2 := by
  simp only [normalizeBuild] at h
  rw [except_bind_ok_iff] at h
  obtain ⟨labels, hlab, h⟩ := h
  rw [except_pure] at h
  cases h
  simp only [normalizeBuild, boOf_bobj]
  rw [normalizeLabelsField_idem _ _ hlab]
  simp only [except_bind_ok, except_pure, Except.ok.injEq, BuildField.bobj.injEq]
  rw [normalizeEnvField_idem]

theorem normalizeBuildField_idem (x y : Option BuildField)
    (h : normalizeBuildField x = .ok y) : normalizeBuildField y = .ok y := by
  cases x with
  | none =>
    simp only [normalizeBuildField, except_pure] at h
    cases h
    rfl
  | some b =>
    simp only [normalizeBuildField] at h
    by_cases ht : buildFieldTruthy b = true
    · rw [if_pos ht] at h
      rw [except_bind_ok_iff] at h
      obtain ⟨b2, hb2, h⟩ := h
      rw [except_pure] at h
      cases h
      obtain ⟨bo, rfl⟩ := normalizeBuild_shape b b2 hb2
      simp only [normalizeBuildField]
      rw [if_pos (show buildFieldTruthy (.bobj bo) = true from rfl)]
      rw [normalizeBuild_idem _ _ hb2]
      simp [except_bind_ok, except_pure]
    · rw [if_neg ht] at h
      rw [except_pure] at h
      cases h
      simp only [normalizeBuildField]
      rw [if_neg ht]
      rfl

theorem normalizeExtraHostsField_idem (x : Option ExtraHosts) :
    normalizeExtraHostsField (normalizeExtraHostsField x) = normalizeExtraHostsField x := by
  cases x with
  | none => rfl
  | some eh => cases eh <;> rfl

theorem normalizePortsField_idem (x : Option (List Value)) :
    normalizePortsField (normalizePortsField x) = normalizePortsField x := by
  cases x with
  | none => rfl
  | some l =>
    simp only [normalizePortsField, normalizeArrayOfStrings, List.map_map, Option.some.injEq]
    apply List.map_congr_left
    intro v _
    rfl

theorem normalizeService_idem (ns vs : List String) (s s' : Service)
    (h : normalizeService ns vs s = .ok s') : normalizeService ns vs s' = .ok s' := by
  rw [normalizeService_ok_iff] at h
  obtain ⟨h1, h2, h3, build, envFile, labels, hb, he, hl, hs'⟩ := h
  have hbt := normalizeBuildField_truthy s.build build hb
  have hfb : s'.build = build := by rw [hs']
  have hfi : s'.image = s.image := by rw [hs']
  have hfd : s'.depends_on = s.depends_on := by rw [hs']
  have hfe : s'.environment = normalizeEnvField s.environment := by rw [hs']
  have hff : s'.env_file = envFile := by rw [hs']
  have hfh : s'.extra_hosts = normalizeExtraHostsField s.extra_hosts := by rw [hs']
  have hfl : s'.labels = labels := by rw [hs']
  have hfp : s'.ports = normalizePortsField s.ports := by rw [hs']
  have hfv : s'.volumes = s.volumes := by rw [hs']
  rw [normalizeService_ok_iff]
  refine ⟨?_, ?_, ?_, build, envFile, labels, ?_, ?_, ?_, ?_⟩
  · simp only [checkImageBuild] at h1 ⊢
    rw [hfi, hfb, hbt]
    exact h1
  · rw [hfd]; exact h2
  · rw [hfv]; exact h3
  · rw [hfb]; exact normalizeBuildField_idem _ _ hb
  · rw [hff]; exact normalizeEnvFileField_idem _ _ he
  · rw [hfl]; exact normalizeLabelsField_idem _ _ hl
  · rw [show ({ s' with
        build := build
        environment := normalizeEnvField s'.environment
        env_file := envFile
        extra_hosts := normalizeExtraHostsField s'.extra_hosts
        labels := labels
        ports := normalizePortsField s'.ports } : Service) =
      { s' with
        build := s'.build
        environment := s'.environment
        env_file := s'.env_file
        extra_hosts := s'.extra_hosts
        labels := s'.labels
        ports := s'.ports } from by
      rw [hfb, hff, hfl, hfe, hfh, hfp]
      rw [normalizeEnvField_idem, normalizeExtraHostsField_idem, normalizePortsField_idem]]

theorem mapValuesM_idem {α : Type} (f : α → Except CompError α) (d : Dict α)
    (hf : ∀ kv ∈ d, f kv.2 = .ok kv.2) : mapValuesM f d = .ok d := by
  induction d with
  | nil => rfl
  | cons kv rest ih =>
    obtain ⟨k, v⟩ := kv
    simp only [mapValuesM]
    rw [hf (k, v) (List.mem_cons_self _ _)]
    rw [show ((k, v) : String × α).2 = v from rfl]
    rw [ih (fun t ht => hf t (List.mem_cons_of_mem _ ht))]
    simp [except_bind_ok, except_pure]

theorem normalizeLabelsField_some_shape (l : ListOrDict) (y : Option ListOrDict)
    (h : normalizeLabelsField (some l) = .ok y) : ∃ e, y = some e := by
  simp only [normalizeLabelsField] at h
  rw [except_bind_ok_iff] at h
  obtain ⟨u, _, h⟩ := h
  rw [except_pure] at h
  cases h
  exact ⟨_, rfl⟩

theorem normalizeNetwork_idem (n n2 : Network) (h : normalizeNetwork n = .ok n2) :
    normalizeNetwork n2 = .ok n2 := by
  simp only [normalizeNetwork] at h
  cases hnl : n.labels with
  | none =>
    rw [hnl] at h
    simp only [normalizeLabelsField, except_pure, except_bind_ok] at h
    cases h
    simp only [normalizeNetwork]
    rw [hnl]
    simp [normalizeLabelsField, except_pure, except_bind_ok]
  | some l =>
    rw [hnl] at h
    rw [except_bind_ok_iff] at h
    obtain ⟨labels2, hlab, h⟩ := h
    rw [except_pure] at h
    cases h
    obtain ⟨e, rfl⟩ := normalizeLabelsField_some_shape l labels2 hlab
    simp only [normalizeNetwork]
    rw [normalizeLabelsField_idem _ _ hlab]
    simp [except_bind_ok, except_pure]

theorem normalizeVolume_idem (v v2 : Volume) (h : normalizeVolume v = .ok v2) :
    normalizeVolume v2 = .ok v2 := by
  simp only [normalizeVolume] at h
  cases hnl : v.labels with
  | none =>
    rw [hnl] at h
    simp only [normalizeLabelsField, except_pure, except_bind_ok] at h
    cases h
    simp only [normalizeVolume]
    rw [hnl]
    simp [normalizeLabelsField, except_pure, except_bind_ok]
  | some l =>
    rw [hnl] at h
    rw [except_bind_ok_iff] at h
    obtain ⟨labels2, hlab, h⟩ := h
    rw [except_pure] at h
    cases h
    obtain ⟨e, rfl⟩ := normalizeLabelsField_some_shape l labels2 hlab
    simp only [normalizeVolume]
    rw [normalizeLabelsField_idem _ _ hlab]
    simp [except_bind_ok, except_pure]

theorem normalizeNetworkEntry_idem (e e2 : Option Network)
    (h : normalizeNetworkEntry e = .ok e2) : normalizeNetworkEntry e2 = .ok e2 := by
  cases e with
  | none =>
    simp only [normalizeNetworkEntry, except_pure] at h
    cases h
    rfl
  | some n =>
    simp only [normalizeNetworkEntry] at h
    rw [except_bind_ok_iff] at h
    obtain ⟨n2, hn2, h⟩ := h
    rw [except_pure] at h
    cases h
    simp only [normalizeNetworkEntry]
    rw [normalizeNetwork_idem _ _ hn2]
    simp [except_bind_ok, except_pure]

theorem normalizeVolumeEntry_idem (e e2 : Option Volume)
    (h : normalizeVolumeEntry e = .ok e2) : normalizeVolumeEntry e2 = .ok e2 := by
  cases e with
  | none =>
    simp only [normalizeVolumeEntry, except_pure] at h
    cases h
    rfl
  | some v =>
    simp only [normalizeVolumeEntry] at h
    rw [except_bind_ok_iff] at h
    obtain ⟨v2, hv2, h⟩ := h
    rw [except_pure] at h
    cases h
    simp only [normalizeVolumeEntry]
    rw [normalizeVolume_idem _ _ hv2]
    simp [except_bind_ok, except_pure]

theorem normalizeVolumesStep_idem (x y : Option (Dict (Option Volume)))
    (h : normalizeVolumesStep x = .ok y) : normalizeVolumesStep y = .ok y := by
  cases x with
  | none =>
    simp only [normalizeVolumesStep, except_pure] at h
    cases h
    rfl
  | some vd =>
    simp only [normalizeVolumesStep] at h
    rw [except_bind_ok_iff] at h
    obtain ⟨vd2, hvd2, h⟩ := h
    rw [except_pure] at h
    cases h
    simp only [normalizeVolumesStep]
    rw [mapValuesM_idem normalizeVolumeEntry vd2 (by
      intro kv hm
      obtain ⟨v0, _, hf⟩ := mapValuesM_mem _ _ _ hvd2 kv hm
      exact normalizeVolumeEntry_idem _ _ hf)]
    simp [except_bind_ok, except_pure]

theorem normalizeNetworksStep_idem (x y : Option (Dict (Option Network)))
    (h : normalizeNetworksStep x = .ok y) : normalizeNetworksStep y = .ok y := by
  cases x with
  | none =>
    simp only [normalizeNetworksStep, except_pure] at h
    cases h
    rfl
  | some nd =>
    simp only [normalizeNetworksStep] at h
    rw [except_bind_ok_iff] at h
    obtain ⟨nd2, hnd2, h⟩ := h
    rw [except_pure] at h
    cases h
    simp only [normalizeNetworksStep]
    rw [mapValuesM_idem normalizeNetworkEntry nd2 (by
      intro kv hm
      obtain ⟨n0, _, hf⟩ := mapValuesM_mem _ _ _ hnd2 kv hm
      exact normalizeNetworkEntry_idem _ _ hf)]
    simp [except_bind_ok, except_pure]

theorem preflightEntries_all_some {α : Type} (empty : α) (d : Dict (Option α)) :
    ∀ kv ∈ preflightEntries empty d, ∃ x, kv.2 = some x := by
  intro kv hm
  simp only [preflightEntries, List.mem_map] at hm
  obtain ⟨p, _, hp⟩ := hm
  rw [← hp]
  exact ⟨_, rfl⟩

theorem preflightEntries_of_some {α : Type} (empty : α) (d : Dict (Option α))
    (h : ∀ kv ∈ d, ∃ x, kv.2 = some x) : preflightEntries empty d = d := by
  induction d with
  | nil => rfl
  | cons kv rest ih =>
    obtain ⟨k, v⟩ := kv
    obtain ⟨x, hx⟩ := h (k, v) (List.mem_cons_self _ _)
    simp only at hx
    simp only [preflightEntries, List.map_cons] at ih ⊢
    rw [hx]
    rw [ih (fun t ht => h t (List.mem_cons_of_mem _ ht))]
    rfl

theorem normalizeNetworkEntry_some (v w : Option Network)
    (hv : ∃ n, v = some n) (h : normalizeNetworkEntry v = .ok w) : ∃ n2, w = some n2 := by
  obtain ⟨n, rfl⟩ := hv
  simp only [normalizeNetworkEntry] at h
  rw [except_bind_ok_iff] at h
  obtain ⟨n2, _, h⟩ := h
  rw [except_pure] at h
  cases h
  exact ⟨n2, rfl⟩

theorem normalizeVolumeEntry_some (v w : Option Volume)
    (hv : ∃ n, v = some n) (h : normalizeVolumeEntry v = .ok w) : ∃ n2, w = some n2 := by
  obtain ⟨n, rfl⟩ := hv
  simp only [normalizeVolumeEntry] at h
  rw [except_bind_ok_iff] at h
  obtain ⟨n2, _, h⟩ := h
  rw [except_pure] at h
  cases h
  exact ⟨n2, rfl⟩

theorem normalizeNetworksStep_all_some (x y : Option (Dict (Option Network)))
    (hx : ∀ d0, x = some d0 → ∀ kv ∈ d0, ∃ n, kv.2 = some n)
    (h : normalizeNetworksStep x = .ok y) :
    y.map (preflightEntries ({} : Network)) = y := by
  cases x with
  | none =>
    simp only [normalizeNetworksStep, except_pure] at h
    cases h
    rfl
  | some nd =>
    simp only [normalizeNetworksStep] at h
    rw [except_bind_ok_iff] at h
    obtain ⟨nd2, hnd2, h⟩ := h
    rw [except_pure] at h
    cases h
    rw [show Option.map (preflightEntries ({} : Network)) (some nd2) =
        some (preflightEntries ({} : Network) nd2) from rfl]
    rw [preflightEntries_of_some _ nd2 (by
      intro kv hm
      obtain ⟨v0, hv0mem, hf⟩ := mapValuesM_mem _ _ _ hnd2 kv hm
      exact normalizeNetworkEntry_some v0 kv.2 (hx nd rfl (kv.1, v0) hv0mem) hf)]

theorem normalizeVolumesStep_all_some (x y : Option (Dict (Option Volume)))
    (hx : ∀ d0, x = some d0 → ∀ kv ∈ d0, ∃ n, kv.2 = some n)
    (h : normalizeVolumesStep x = .ok y) :
    y.map (preflightEntries ({} : Volume)) = y := by
  cases x with
  | none =>
    simp only [normalizeVolumesStep, except_pure] at h
    cases h
    rfl
  | some vd =>
    simp only [normalizeVolumesStep] at h
    rw [except_bind_ok_iff] at h
    obtain ⟨vd2, hvd2, h⟩ := h
    rw [except_pure] at h
    cases h
    rw [show Option.map (preflightEntries ({} : Volume)) (some vd2) =
        some (preflightEntries ({} : Volume) vd2) from rfl]
    rw [preflightEntries_of_some _ vd2 (by
      intro kv hm
      obtain ⟨v0, hv0mem, hf⟩ := mapValuesM_mem _ _ _ hvd2 kv hm
      exact normalizeVolumeEntry_some v0 kv.2 (hx vd rfl (kv.1, v0) hv0mem) hf)]

/-- A canonical Composition, fed back to normalize as a raw version-2.1
document: the version tag becomes the version string field, the service map
the services field, and the networks and volumes maps are passed through. -/
def compositionAsInput (c : Composition) : RawInput :=
  .v2Object { version := .vstr c.version, services := some c.services,
              networks := c.networks, volumes := c.volumes }

/-- C8: normalize is idempotent on its own outputs: feeding a composition
produced by a successful normalize run back in (as the version-2.1 document it
prints as) yields it unchanged, given that the schema validator accepts the
canonical document again. -/
theorem c8_normalize_idempotent
    (vc vc2 : SchemaVersion → RawInput → Except String Unit)
    (input : RawInput) (comp : Composition)
    (h1 : normalizeObjectToComposition vc input = .ok comp)
    (h2 : vc2 SchemaVersion.v2_1 (compositionAsInput comp) = .ok ()) :
    normalizeObjectToComposition vc2 (compositionAsInput comp) = .ok comp := by
  obtain ⟨vols2, svcs2, nets2, hv, hs, hn, hcomp⟩ := normalizeOTC_ok_inv vc input comp h1
  have hxn : ∀ d0, preflightedNetworks input = some d0 → ∀ kv ∈ d0, ∃ n, kv.2 = some n := by
    intro d0 hd0
    cases input with
    | scalar v =>
      rw [show preflightedNetworks (RawInput.scalar v) = none from rfl] at hd0
      cases hd0
    | v1Object sv =>
      rw [show preflightedNetworks (RawInput.v1Object sv) = none from rfl] at hd0
      cases hd0
    | v2Object d =>
      simp only [preflightedNetworks] at hd0
      cases hdn : d.networks with
      | none => rw [hdn] at hd0; cases hd0
      | some dn =>
        rw [hdn] at hd0
        rw [show Option.map (preflightEntries ({} : Network)) (some dn) =
            some (preflightEntries ({} : Network) dn) from rfl] at hd0
        cases hd0
        exact preflightEntries_all_some _ dn
  have hxv : ∀ d0, preflightedVolumes input = some d0 → ∀ kv ∈ d0, ∃ n, kv.2 = some n := by
    intro d0 hd0
    cases input with
    | scalar v =>
      rw [show preflightedVolumes (RawInput.scalar v) = none from rfl] at hd0
      cases hd0
    | v1Object sv =>
      rw [show preflightedVolumes (RawInput.v1Object sv) = none from rfl] at hd0
      cases hd0
    | v2Object d =>
      simp only [preflightedVolumes] at hd0
      cases hdn : d.volumes with
      | none => rw [hdn] at hd0; cases hd0
      | some dn =>
        rw [hdn] at hd0
        rw [show Option.map (preflightEntries ({} : Volume)) (some dn) =
            some (preflightEntries ({} : Volume) dn) from rfl] at hd0
        cases hd0
        exact preflightEntries_all_some _ dn
  have hmapn : nets2.map (preflightEntries ({} : Network)) = nets2 :=
    normalizeNetworksStep_all_some _ _ hxn hn
  have hmapv : vols2.map (preflightEntries ({} : Volume)) = vols2 :=
    normalizeVolumesStep_all_some _ _ hxv hv
  have hkeys : dictKeys svcs2 = dictKeys (inputServices input) := mapValuesM_keys _ _ _ hs
  have hv2 : normalizeVolumesStep vols2 = .ok vols2 := normalizeVolumesStep_idem _ _ hv
  have hn2 : normalizeNetworksStep nets2 = .ok nets2 := normalizeNetworksStep_idem _ _ hn
  have hs2 : mapValuesM (normalizeService (dictKeys svcs2) (optDictKeys vols2)) svcs2 =
      .ok svcs2 := by
    rw [hkeys]
    apply mapValuesM_idem
    intro kv hm
    obtain ⟨v0, _, hf⟩ := mapValuesM_mem _ _ _ hs kv hm
    exact normalizeService_idem _ _ _ _ hf
  subst hcomp
  simp only [compositionAsInput] at h2 ⊢
  simp only [normalizeObjectToComposition, Value.toText]
  rw [if_neg (by decide), if_pos trivial]
  simp only [except_pure, except_bind_ok, hmapn, hmapv]
  rw [h2]
  rw [show (some svcs2).getD [] = svcs2 from rfl]
  exact normalizeV21_eq_ok svcs2 nets2 vols2 vols2 svcs2 nets2 hv2 hs2 hn2

/-- C8 witness: a one-service image composition normalizes to itself when the
canonical output is fed back in. -/
theorem c8_normalize_idempotent_witness :
    normalizeObjectToComposition (fun _ _ => .ok ())
        (.v1Object [("main", { image := some "some/image" })]) =
      .ok (Composition.mk "2.1" [("main", { image := some "some/image" })] none none) ∧
    (fun (_ : SchemaVersion) (_ : RawInput) => (.ok () : Except String Unit))
        SchemaVersion.v2_1 (compositionAsInput
          (Composition.mk "2.1" [("main", { image := some "some/image" })] none none)) =
      .ok () ∧
    normalizeObjectToComposition (fun _ _ => .ok ())
        (compositionAsInput
          (Composition.mk "2.1" [("main", { image := some "some/image" })] none none)) =
      .ok (Composition.mk "2.1" [("main", { image := some "some/image" })] none none) :=
  ⟨rfl, rfl, c8_normalize_idempotent (fun _ _ => .ok ()) (fun _ _ => .ok ())
    (.v1Object [("main", { image := some "some/image" })])
    (Composition.mk "2.1" [("main", { image := some "some/image" })] none none) rfl rfl⟩

end BCP
